import Mathlib

/-!
# Verification of the mSense MDO core

Shallow embedding of the mSense evaluation core (disciplines with result
caching, the coupled-system solver driver, and the jacobian assembler),
translated from the Python sources:

* `msense/core/variable.py`
* `msense/utils/array_and_dict_utils.py`
* `msense/cache/memory_cache.py`
* `msense/core/discipline.py`
* `msense/solver/solver.py`, `msense/utils/graph_utils.py`
* `msense/jacobians/jacobian_assembler.py`

Modelling conventions:

* numpy float64 scalars are modelled as `ℚ` (exact arithmetic; the claims
  under study are about control flow, caching and linear algebra, not about
  rounding);
* a numpy 1-d array is a `List ℚ`; a dense 2-d block is a `List (List ℚ)`;
* a Python `dict` keyed by variable name is an association list
  `List (String × _)`; `List.lookup` returns the first binding, and dicts
  built by the embedded operations never hold a duplicate key twice with
  different values;
* `numpy.linalg.norm` (the Euclidean norm) is not rational-valued, so every
  definition that needs it takes an abstract `nrm : List ℚ → ℚ` parameter.
  All the proved properties hold for an arbitrary `nrm`; concrete witnesses
  instantiate `nrm` with `nrmAbs` (the sum of absolute values), which
  coincides with the Euclidean norm on the ≤ 1-component vectors used there.
-/

namespace MSense

/-- A numeric vector (numpy 1-d array over float64, modelled exactly). -/
abbrev Vec := List ℚ

/-- A dense jacobian block (numpy 2-d array), row-major. -/
abbrev Block := List (List ℚ)

/-- A value container: Python `Dict[str, ndarray]` as an association list. -/
abbrev VDict := List (String × Vec)

/-- A two-level jacobian container: `Dict[str, Dict[str, ndarray]]`. -/
abbrev JDict := List (String × List (String × Block))

/-- The frozen dataclass `Variable` of `msense/core/variable.py`.
The float bounds `lb`/`ub` (Python defaults `-inf`/`+inf`) are modelled as
`Option ℚ`, `none` standing for the infinite default of the respective
field; this loses nothing for the claims under study, which never evaluate
a bound. -/
structure Variable where
  name : String := ""
  size : ℕ := 1
  lb : Option ℚ := none
  ub : Option ℚ := none
  keep_feasible : Bool := false
deriving DecidableEq, Repr

/-- Lookup in an association list: the Python `values_dict[name]` /
`name in values_dict` access, returning `none` for a missing key. -/
def lookupV {β : Type} (d : List (String × β)) (k : String) : Option β :=
  match d with
  | [] => none
  | p :: rest => if p.1 = k then some p.2 else lookupV rest k

/-- The equality the Python code actually runs: `dataclasses` generates
`__eq__` from *every* field (each `field(...)` keeps the default
`compare=True`; the `hash=False` markers only affect `__hash__`). -/
def variableEqFull (a b : Variable) : Bool :=
  decide (a = b)

/-- The tuple of fields that take part in the generated `__hash__`: only
`name` is declared with `field(hash=True)`, every other field with
`field(hash=False)`.  Two variables hash equal iff these tuples agree. -/
def variableHashKey (v : Variable) : String :=
  v.name

/-- Python `list.__contains__` over `Variable` values, which dispatches to
the dataclass `__eq__` (all fields). -/
def varMem (v : Variable) (l : List Variable) : Bool :=
  l.any (fun w => variableEqFull w v)

/-- Embeds `get_variable_list_size` (`array_and_dict_utils.py`): total
size of a variable list. -/
def get_variable_list_size (vars : List Variable) : ℕ :=
  vars.foldl (fun acc v => acc + v.size) 0

/-- Python `dict` update with a single key: replace the binding if the key
is present, append it otherwise (insertion-order semantics of `dict`). -/
def updOne (d : VDict) (k : String) (v : Vec) : VDict :=
  if d.any (fun p => p.1 = k) then
    d.map (fun p => if p.1 = k then (k, v) else p)
  else
    d ++ [(k, v)]

/-- Python `d.update(e)`: every binding of `e` is written into `d` in
order, later occurrences of a key in `e` winning. -/
def updateD (d e : VDict) : VDict :=
  e.foldl (fun acc p => updOne acc p.1 p.2) d

/-- Embeds `copy_dict_1d` (`array_and_dict_utils.py`): for each variable in
`vars`, copy its value out of `values_dict` when present, in `vars`
order (the Python loop appends; the recursion below builds the same
list).  The numpy `.copy()` is the identity at the value level; the
address-level content of the copy is modelled separately below for the
aliasing claim. -/
def copy_dict_1d (vars : List Variable) (values_dict : VDict) : VDict :=
  match vars with
  | [] => []
  | v :: rest =>
    match lookupV values_dict v.name with
    | some x => (v.name, x) :: copy_dict_1d rest values_dict
    | none => copy_dict_1d rest values_dict

/-- Embeds `verify_dict_1d` (`array_and_dict_utils.py`): check that every
variable has a value of the declared size; a missing value raises
`TypeError`, a mis-sized one raises `ValueError` (both modelled as
`Except.error` carrying the message).  The `atleast_1d(...).astype(dtype)`
conversion is the identity in this model (values are already 1-d exact
rationals). -/
def verify_dict_1d (vars : List Variable) (values_dict : VDict) :
    Except String VDict :=
  match vars with
  | [] => .ok values_dict
  | v :: rest =>
    match lookupV values_dict v.name with
    | none => .error ("Missing value for Variable " ++ v.name ++ ".")
    | some x =>
      if v.size ≠ x.length then
        .error ("Wrong size, for Variable " ++ v.name ++ ".")
      else
        verify_dict_1d rest values_dict

/-- Componentwise subtraction `original[name] - test[name]` (numpy array
subtraction; the operands always have equal length where the code runs). -/
def vecSub (a b : Vec) : Vec :=
  List.zipWith (fun x y => x - y) a b

/-- Lookup with the empty vector as default.  The Python code would raise
`KeyError` on a missing key; every theorem below that inspects values
carries hypotheses keeping lookups inside the dict, so the default is
never observed. -/
def lookupD (d : VDict) (k : String) : Vec :=
  (lookupV d k).getD []

/-- The per-variable normalized relative error used by the cache match:
`norm(original - test) / (1 + norm(test))`. -/
def relErr (nrm : Vec → ℚ) (original test : VDict) (v : Variable) : ℚ :=
  nrm (vecSub (lookupD original v.name) (lookupD test v.name)) /
    (1 + nrm (lookupD test v.name))

/-- Embeds `check_values_match` (`array_and_dict_utils.py`): an empty `original`
or `test` dict never matches (`if not original or not test`); otherwise
every variable must have relative error strictly below `tol`. -/
def check_values_match (nrm : Vec → ℚ) (vars : List Variable)
    (original test : VDict) (tol : ℚ) : Bool :=
  if original = [] ∨ test = [] then
    false
  else
    vars.all (fun v => decide (relErr nrm original test v < tol))

/-- Sum of absolute values: used to instantiate the abstract norm in
concrete witnesses.  On vectors with at most one component it coincides
with the Euclidean norm `numpy.linalg.norm` computes. -/
def nrmAbs (v : Vec) : ℚ :=
  (v.map (fun x => |x|)).sum

/-- The inner per-input loop of `copy_dict_2d`: copy the blocks present
for the given input variables, in list order. -/
def copyInnerBlocks (input_vars : List Variable)
    (inner : List (String × Block)) : List (String × Block) :=
  match input_vars with
  | [] => []
  | iv :: rest =>
    match lookupV inner iv.name with
    | some b => (iv.name, b) :: copyInnerBlocks rest inner
    | none => copyInnerBlocks rest inner

/-- Embeds `copy_dict_2d` (`array_and_dict_utils.py`): two-level copy of
the jacobian blocks present in `values_dict`, in variable-list order. -/
def copy_dict_2d (input_vars output_vars : List Variable)
    (values_dict : JDict) : JDict :=
  match output_vars with
  | [] => []
  | ov :: rest =>
    match lookupV values_dict ov.name with
    | some inner => (ov.name, copyInnerBlocks input_vars inner) ::
        copy_dict_2d input_vars rest values_dict
    | none => copy_dict_2d input_vars rest values_dict

/-- The `CachePolicy` enum of `msense/cache/cache.py`. -/
inductive CachePolicy where
  | latest
  | full
deriving DecidableEq, Repr

/-- One cache entry of `MemoryCache` (`msense/cache/memory_cache.py`):
the Python entry dict `{"inputs": ..., "outputs": ..., "jac": ...}`, with
the empty dict standing for the `{}` placeholders. -/
structure Entry where
  inputs : VDict
  outputs : VDict
  jac : JDict
deriving DecidableEq, Repr

/-- The in-memory cache of `msense/cache/memory_cache.py` together with
the configuration it receives from `Cache.__init__` (`cache.py`).  The
file-backed operations (`from_file`/`to_file`) are out of scope here.
`entries` is ordered oldest first; the last element is the latest entry. -/
structure MemoryCache where
  input_vars : List Variable
  output_vars : List Variable
  dinput_vars : List Variable
  doutput_vars : List Variable
  policy : CachePolicy
  tol : ℚ
  entries : List Entry
deriving DecidableEq, Repr

/-- The per-entry test `check_if_entry_exists` applies: the stored inputs
are the `original` argument of `check_values_match` and the query the
`test` argument. -/
def entryMatches (nrm : Vec → ℚ) (c : MemoryCache) (input_values : VDict)
    (e : Entry) : Bool :=
  check_values_match nrm c.input_vars e.inputs input_values c.tol

/-- Embeds `MemoryCache.check_if_entry_exists`: scan the entries newest
first (`for entry in reversed(self._entries)`) and return the first whose
inputs match the query within tolerance. -/
def check_if_entry_exists (nrm : Vec → ℚ) (c : MemoryCache)
    (input_values : VDict) : Option Entry :=
  c.entries.reverse.find? (entryMatches nrm c input_values)

/-- Position (counted from the head of `entries`) and value of the entry
`check_if_entry_exists` returns, i.e. of the *last* matching entry.  The
Python code mutates that entry in place through the alias returned by
`check_if_entry_exists`; the functional rendering of `add_entry` needs its
index to perform the replacement. -/
def findMatchRev (pred : Entry → Bool) : List Entry → Option (ℕ × Entry)
  | [] => none
  | e :: rest =>
    match findMatchRev pred rest with
    | some (i, e2) => some (i + 1, e2)
    | none => if pred e then some (0, e) else none

/-- Merging the provided outputs/jacobian into an entry: mirrors the two
`if ... is not None` blocks of `MemoryCache.add_entry`. -/
def mergeEntry (c : MemoryCache) (e : Entry) (output_values : Option VDict)
    (jac : Option JDict) : Entry :=
  let e := match output_values with
    | some o => { e with outputs := copy_dict_1d c.output_vars o }
    | none => e
  match jac with
  | some j => { e with jac := copy_dict_2d c.dinput_vars c.doutput_vars j }
  | none => e

/-- Embeds `MemoryCache.add_entry`.  If a matching entry exists it is
updated in place (through the alias `check_if_entry_exists` returned);
otherwise a fresh entry with copied inputs is built.  Under `FULL` a
genuinely new entry is appended; under `LATEST` the entry list becomes
exactly the entry just added or merged. -/
def add_entry (nrm : Vec → ℚ) (c : MemoryCache) (input_values : VDict)
    (output_values : Option VDict) (jac : Option JDict) : MemoryCache :=
  match findMatchRev (entryMatches nrm c input_values) c.entries with
  | some (i, e) =>
    let e2 := mergeEntry c e output_values jac
    match c.policy with
    | .full => { c with entries := c.entries.set i e2 }
    | .latest => { c with entries := [e2] }
  | none =>
    let e2 := mergeEntry c
      { inputs := copy_dict_1d c.input_vars input_values,
        outputs := [], jac := [] } output_values jac
    match c.policy with
    | .full => { c with entries := c.entries ++ [e2] }
    | .latest => { c with entries := [e2] }

/-- The entry `add_entry` just added or merged: the matched entry (when
one exists) or the freshly created one, with the provided fields merged
in. -/
def addedEntry (nrm : Vec → ℚ) (c : MemoryCache) (input_values : VDict)
    (output_values : Option VDict) (jac : Option JDict) : Entry :=
  match findMatchRev (entryMatches nrm c input_values) c.entries with
  | some (_, e) => mergeEntry c e output_values jac
  | none =>
    mergeEntry c
      { inputs := copy_dict_1d c.input_vars input_values,
        outputs := [], jac := [] } output_values jac

/-- Embeds `MemoryCache.load_entry`: copies of the matching entry's
outputs and jacobian, or `(None, None)` when no entry matches. -/
def load_entry (nrm : Vec → ℚ) (c : MemoryCache) (input_values : VDict) :
    Option VDict × Option JDict :=
  match check_if_entry_exists nrm c input_values with
  | some e =>
    (some (copy_dict_1d c.output_vars e.outputs),
     some (copy_dict_2d c.dinput_vars c.doutput_vars e.jac))
  | none => (none, none)

/-- The `Discipline` object of `msense/core/discipline.py`: static
configuration (name, variable lists, cache) together with the mutable
state (`_values`, `_jac`, `_default_inputs`, counters, the
`_approximating_jac` flag).  `Discipline.__init__` always creates a cache
(`create_cache` is called unconditionally), so the cache is a plain field.
Messages handed to `logger.error` are collected in `log`: the claims under
study are about which errors are merely logged rather than raised. -/
structure Discipline where
  name : String
  input_vars : List Variable
  output_vars : List Variable
  dinput_vars : List Variable
  doutput_vars : List Variable
  cache : MemoryCache
  n_eval : ℕ
  n_diff : ℕ
  default_inputs : VDict
  values : VDict
  jac : JDict
  approximating_jac : Bool
  log : List String
deriving Repr

/-- Embeds `Discipline.get_input_values`. -/
def get_input_values (d : Discipline) : VDict :=
  copy_dict_1d d.input_vars d.values

/-- Embeds `Discipline.get_output_values`. -/
def get_output_values (d : Discipline) : VDict :=
  copy_dict_1d d.output_vars d.values

/-- Embeds `Discipline.get_default_inputs`. -/
def get_default_inputs (d : Discipline) : VDict :=
  copy_dict_1d d.input_vars d.default_inputs

/-- Embeds `Discipline.add_default_inputs`. -/
def add_default_inputs (d : Discipline) (input_values : VDict) : Discipline :=
  { d with default_inputs :=
      updateD d.default_inputs (copy_dict_1d d.input_vars input_values) }

/-- Embeds `Discipline._sanitize_inputs`: merge the caller values over the
stored defaults, then verify; a verification failure is *caught*, logged
through `logger.error`, and the call continues with the unverified value
set (`except Exception as e: logger.error(...)`). -/
def sanitizeInputs (d : Discipline) (input_values : Option VDict) :
    Discipline :=
  let iv := input_values.getD []
  let d := { d with values := updateD d.values (get_default_inputs d) }
  let d := { d with values := updateD d.values (copy_dict_1d d.input_vars iv) }
  match verify_dict_1d d.input_vars d.values with
  | .ok vs => { d with values := vs }
  | .error e => { d with log := d.log ++ [d.name ++ ": " ++ e] }

/-- Embeds `Discipline._load_cache_entry_outputs`: `True` (a hit) exactly
when an entry matches *and* its copied outputs dict is non-empty (`if
output_values:`), in which case the outputs are merged into the working
values. -/
def loadCacheEntryOutputs (nrm : Vec → ℚ) (d : Discipline) :
    Bool × Discipline :=
  match load_entry nrm d.cache d.values with
  | (some ov, _) =>
    if ov = [] then (false, d)
    else (true, { d with values := updateD d.values ov })
  | (none, _) => (false, d)

/-- Embeds `Discipline._add_cache_entry_outputs`: store the current
working values as both the inputs and the outputs of a cache entry. -/
def addCacheEntryOutputs (nrm : Vec → ℚ) (d : Discipline) : Discipline :=
  { d with cache := add_entry nrm d.cache d.values (some d.values) none }

/-- Embeds `Discipline.eval`.  The user-supplied `_eval` body is the
parameter `userEval`, acting on the working value set (it "should update
the values for the output variables").  Output verification failures are
caught and logged exactly like input ones.  The evaluation counter is
incremented only on a cache miss; outside an approximation sweep the
inputs are merged into the defaults and, on a miss, the new outputs are
stored in the cache.  Returns the copied output values together with the
updated discipline. -/
def eval (nrm : Vec → ℚ) (userEval : VDict → VDict) (d : Discipline)
    (input_values : Option VDict) : VDict × Discipline :=
  let d := { d with values := [], jac := [] }
  let d := sanitizeInputs d input_values
  let p := loadCacheEntryOutputs nrm d
  let entry_exists := p.1
  let d := p.2
  let d := if entry_exists then d else { d with values := userEval d.values }
  let d := match verify_dict_1d d.output_vars d.values with
    | .ok vs => { d with values := vs }
    | .error e => { d with log := d.log ++ [d.name ++ ": " ++ e] }
  let d := if entry_exists then d else { d with n_eval := d.n_eval + 1 }
  let d :=
    if d.approximating_jac then d
    else
      let d := add_default_inputs d (get_input_values d)
      if entry_exists then d else addCacheEntryOutputs nrm d
  (get_output_values d, d)

/-- The value set `Discipline.eval` works with right after input
sanitization (the query used for the cache lookup). -/
def sanitizedValues (d : Discipline) (input_values : Option VDict) : VDict :=
  (sanitizeInputs { d with values := [], jac := [] } input_values).values

/-- Whether `Discipline.eval` on the given inputs takes the cache-hit
path. -/
def evalHit (nrm : Vec → ℚ) (d : Discipline) (input_values : Option VDict) :
    Bool :=
  (loadCacheEntryOutputs nrm
    (sanitizeInputs { d with values := [], jac := [] } input_values)).1

/-- Embeds `get_couplings` (`msense/utils/graph_utils.py`): concatenate
all input and output variable lists, then collect — in first-discovery
order, deduplicated — the output variables that also occur among the
inputs.  Membership (`in`) runs the dataclass `__eq__`, which compares
every field (see `variableEqFull`). -/
def get_couplings (disciplines : List Discipline) : List Variable :=
  let input_vars := disciplines.foldl (fun acc d => acc ++ d.input_vars) []
  let output_vars := disciplines.foldl (fun acc d => acc ++ d.output_vars) []
  output_vars.foldl
    (fun acc ov =>
      if varMem ov input_vars ∧ ¬ varMem ov acc then acc ++ [ov] else acc)
    []

/-- Static configuration of a `Solver` (`msense/solver/solver.py`):
`__init__` stores the discipline list and the numeric parameters, and
derives `coupling_vars` through `get_couplings`. -/
structure Solver where
  name : String
  disciplines : List Discipline
  n_iter_max : ℕ
  relax_fact : ℚ
  tol : ℚ

/-- The mutable solver state during `solve`: residual-metric history,
iteration count, convergence status (`True` = `CONVERGED`), the old and
current coupling-variable values, the messages logged, and whether the
final non-convergence warning (`logger.warn`) was emitted.  `solve`
always *returns* `self._values` — raising is not among its exits — so the
embedding returns the whole final state and the claims read its fields. -/
structure SolverState where
  name : String
  coupling_vars : List Variable
  relax_fact : ℚ
  tol : ℚ
  history : List ℚ
  iter : ℕ
  status : Bool
  old_values : VDict
  values : VDict
  log : List String
  warned : Bool
deriving Repr

/-- Relaxation of one coupling value: `relax_fact * new + (1 - relax_fact)
* old`, componentwise. -/
def vecRelax (α : ℚ) (new old : Vec) : Vec :=
  List.zipWith (fun n o => α * n + (1 - α) * o) new old

/-- Embeds `Solver._apply_relaxation`: every coupling variable's current
value is blended with its previous value. -/
def applyRelaxation (s : SolverState) : SolverState :=
  let newVals :=
    s.coupling_vars.foldl
      (fun acc var =>
        updOne acc var.name
          (vecRelax s.relax_fact (lookupD acc var.name)
            (lookupD s.old_values var.name)))
      s.values
  { s with values := newVals }

/-- Embeds `Solver._initialize_values`: caller-provided values win, then
the disciplines' stored defaults; a variable resolved by neither is left
absent, which the subsequent `verify_dict_1d` reports — and the failure
is again only logged (`except ... logger.error`).  The old values are
set to zero vectors of matching size. -/
def initValues (s : SolverState) (disciplines : List Discipline)
    (initial_coupling_values : Option VDict) : SolverState :=
  let init := initial_coupling_values.getD []
  let default_values :=
    disciplines.foldl (fun acc d => updateD acc (get_default_inputs d)) []
  let values :=
    s.coupling_vars.foldl
      (fun acc var =>
        match lookupV init var.name with
        | some x => updOne acc var.name x
        | none =>
          match lookupV default_values var.name with
          | some x => updOne acc var.name x
          | none => acc)
      []
  let s := { s with values := values }
  let s := match verify_dict_1d s.coupling_vars s.values with
    | .ok vs => { s with values := vs }
    | .error e => { s with log := s.log ++ [s.name ++ ": " ++ e] }
  let newOld :=
    s.coupling_vars.foldl
      (fun acc var => updOne acc var.name (List.replicate var.size 0))
      s.old_values
  { s with old_values := newOld }

/-- The residual metric `Solver._update_history` computes: the sum over
coupling variables of `norm(new - old) / (1 + norm(new))`. -/
def residMetric (nrm : Vec → ℚ) (s : SolverState) : ℚ :=
  s.coupling_vars.foldl
    (fun acc var =>
      acc +
        nrm (vecSub (lookupD s.values var.name)
            (lookupD s.old_values var.name)) /
          (1 + nrm (lookupD s.values var.name)))
    0

/-- Embeds `Solver._update_history`: the residual metric is appended to
the history, and the status is promoted to `CONVERGED` when the metric is
at or below the tolerance (never demoted). -/
def updateHistory (nrm : Vec → ℚ) (s : SolverState) : SolverState :=
  let metric := residMetric nrm s
  let s := { s with history := s.history ++ [metric] }
  if metric ≤ s.tol then { s with status := true } else s

/-- One pass of the `while` body in `Solver.solve`: bump the iteration
count, shift current → old, run the strategy-specific single iteration
(`singleIter` abstracts `_single_iteration`, which reads `_old_values`
and produces the new `_values` — cf. `nonlinear_jacobi.py`,
`nonlinear_gs.py`, `newton_raphson.py`), apply relaxation, and record the
new residual. -/
def solverPass (nrm : Vec → ℚ) (singleIter : VDict → VDict)
    (s : SolverState) : SolverState :=
  let s := { s with iter := s.iter + 1, old_values := s.values,
                    values := singleIter s.values }
  let s := applyRelaxation s
  updateHistory nrm s

/-- The `while self.iter < self.n_iter_max` loop, with the remaining
iteration budget as explicit fuel (each pass increments `iter` by exactly
one, so fuel `n_iter_max - iter` is the loop guard).  A converged state
exits immediately (`break`). -/
def solveLoop (nrm : Vec → ℚ) (singleIter : VDict → VDict) :
    ℕ → SolverState → SolverState
  | 0, s => s
  | fuel + 1, s =>
    if s.status then s else solveLoop nrm singleIter fuel (solverPass nrm singleIter s)

/-- Embeds `Solver.solve`: reset history/iteration/status, initialize the
coupling values, record the initial residual, iterate, and finally either
log convergence (`logger.info`) or log the non-fatal warning
(`logger.warn`) — in both cases the current values are returned to the
caller; non-convergence never raises. -/
def solve (nrm : Vec → ℚ) (singleIter : VDict → VDict) (sv : Solver)
    (initial_coupling_values : Option VDict) : SolverState :=
  let s : SolverState :=
    { name := sv.name, coupling_vars := get_couplings sv.disciplines,
      relax_fact := sv.relax_fact, tol := sv.tol,
      history := [], iter := 0, status := false,
      old_values := [], values := [], log := [], warned := false }
  let s := initValues s sv.disciplines initial_coupling_values
  let s := updateHistory nrm s
  let s := solveLoop nrm singleIter sv.n_iter_max s
  if s.status then s
  else
    { s with warned := true,
             log := s.log ++
               [s.name ++ ": reached the maximum number of iterations, " ++
                 "residual above tolerance"] }

/-- Python dict assignment `d[k] = v` for an arbitrary value type:
replace the binding when the key exists, append otherwise. -/
def dictSet {β : Type} (d : List (String × β)) (k : String) (v : β) :
    List (String × β) :=
  if d.any (fun p => p.1 = k) then
    d.map (fun p => if p.1 = k then (k, v) else p)
  else
    d ++ [(k, v)]

/-- Which variable block a flat row/column index of an assembled matrix
falls into, and the offset inside that block.  This is the name→offset
layout built by concatenating variable sizes in list order. -/
def varAt : List Variable → ℕ → Option (Variable × ℕ)
  | [], _ => none
  | v :: rest, i => if i < v.size then some (v, i) else varAt rest (i - v.size)

/-- Flat offset of the `k`-th variable block in the concatenated layout. -/
def offsetOf (vars : List Variable) (k : ℕ) : ℕ :=
  (vars.take k).foldl (fun acc v => acc + v.size) 0

/-- Two-level lookup `values_dict[out][in]` with `none` for an absent key
at either level. -/
def lookup2 (pd : JDict) (o i : String) : Option Block :=
  match lookupV pd o with
  | some inner => lookupV inner i
  | none => none

/-- Entry `(i, j)` of a dense block, rows first. -/
def blockGet (b : Block) (i j : ℕ) : ℚ :=
  (b.getD i []).getD j 0

/-- Entry function of the matrix `JacobianAssembler.assemble_partial`
builds (`msense/jacobians/jacobian_assembler.py`): a name-matching
(output, input) pair contributes an identity sub-block; any other pair
contributes the supplied block — multiplied by `-1` when the outputs are
treated as residuals — or an (implicit) zero block when no block was
supplied.  The Python code reads `partial[out_var.name]` before testing
the inner key, so an absent *outer* key raises `KeyError`; the claims
about this routine therefore carry the documented precondition that the
mapping covers every output variable, and the `none => 0` branch below is
unreachable under it. -/
def assemblePartialEntry (input_vars output_vars : List Variable)
    (pd : JDict) (as_residual : Bool) (i j : ℕ) : ℚ :=
  let sign : ℚ := if as_residual then -1 else 1
  match varAt output_vars i, varAt input_vars j with
  | some (ov, oi), some (iv, ij) =>
    if ov.name = iv.name then (if oi = ij then 1 else 0)
    else
      match lookup2 pd ov.name iv.name with
      | some b => sign * blockGet b oi ij
      | none => 0
  | _, _ => 0

/-- Embeds `JacobianAssembler.assemble_partial` as a matrix of shape
`(Σ output sizes, Σ input sizes)`. -/
def assemblePartial (input_vars output_vars : List Variable) (pd : JDict)
    (as_residual : Bool) :
    Matrix (Fin (get_variable_list_size output_vars))
      (Fin (get_variable_list_size input_vars)) ℚ :=
  Matrix.of fun i j => assemblePartialEntry input_vars output_vars pd as_residual i.val j.val

/-- Embeds `array_to_dict_2d` (`array_and_dict_utils.py`): slice a flat
`(Σ output sizes, Σ input sizes)` matrix back into the two-level
output→input mapping, blocks taken at the concatenated offsets. -/
def array_to_dict_2d (input_vars output_vars : List Variable)
    (m : ℕ → ℕ → ℚ) : JDict :=
  (output_vars.foldl
    (fun (acc : JDict × ℕ) ov =>
      let inner :=
        (input_vars.foldl
          (fun (acc2 : List (String × Block) × ℕ) iv =>
            let b : Block :=
              (List.range ov.size).map
                (fun r => (List.range iv.size).map (fun c => m (acc.2 + r) (acc2.2 + c)))
            (dictSet acc2.1 iv.name b, acc2.2 + iv.size))
          ([], 0)).1
      (dictSet acc.1 ov.name inner, acc.2 + ov.size))
    ([], 0)).1

/-- The branch test in `JacobianAssembler.assemble_total`: the adjoint
path is taken when `not n_inputs >= n_outputs`. -/
def usesAdjoint (input_vars output_vars : List Variable) : Bool :=
  decide (¬ get_variable_list_size input_vars ≥ get_variable_list_size output_vars)

/-- The adjoint path of `assemble_total`: `spsolve(dRdy.T, dfdy.T)` (the
linear solve, modelled as multiplication by the matrix inverse), then
`total = dfdx - solution.T @ dRdx`. -/
noncomputable def adjointTotal (input_vars output_vars coupling_vars : List Variable)
    (pd : JDict) :
    Matrix (Fin (get_variable_list_size output_vars))
      (Fin (get_variable_list_size input_vars)) ℚ :=
  let dRdy := assemblePartial coupling_vars coupling_vars pd true
  let dRdx := assemblePartial input_vars coupling_vars pd true
  let dfdy := assemblePartial coupling_vars output_vars pd false
  let dfdx := assemblePartial input_vars output_vars pd false
  dfdx - ((dRdy.transpose)⁻¹ * dfdy.transpose).transpose * dRdx

/-- The direct path of `assemble_total`: `spsolve(dRdy, dRdx)`, then
`total = dfdx - dfdy @ solution`. -/
noncomputable def directTotal (input_vars output_vars coupling_vars : List Variable)
    (pd : JDict) :
    Matrix (Fin (get_variable_list_size output_vars))
      (Fin (get_variable_list_size input_vars)) ℚ :=
  let dRdy := assemblePartial coupling_vars coupling_vars pd true
  let dRdx := assemblePartial input_vars coupling_vars pd true
  let dfdy := assemblePartial coupling_vars output_vars pd false
  let dfdx := assemblePartial input_vars output_vars pd false
  dfdx - dfdy * (dRdy⁻¹ * dRdx)

/-- The total-derivative expression both paths are meant to realize:
`dF/dX - dF/dY · (dR/dY)⁻¹ · dR/dX` over the assembled blocks. -/
noncomputable def totalFormula (input_vars output_vars coupling_vars : List Variable)
    (pd : JDict) :
    Matrix (Fin (get_variable_list_size output_vars))
      (Fin (get_variable_list_size input_vars)) ℚ :=
  let dRdy := assemblePartial coupling_vars coupling_vars pd true
  let dRdx := assemblePartial input_vars coupling_vars pd true
  let dfdy := assemblePartial coupling_vars output_vars pd false
  let dfdx := assemblePartial input_vars output_vars pd false
  dfdx - dfdy * (dRdy)⁻¹ * dRdx

/-- Embeds `JacobianAssembler.assemble_total`: assemble the four block
matrices, pick the adjoint path exactly when `not n_inputs >= n_outputs`,
and convert the resulting flat matrix back to the output→input mapping. -/
noncomputable def assemble_total (input_vars output_vars coupling_vars : List Variable)
    (pd : JDict) : JDict :=
  let total :=
    if usesAdjoint input_vars output_vars then
      adjointTotal input_vars output_vars coupling_vars pd
    else
      directTotal input_vars output_vars coupling_vars pd
  array_to_dict_2d input_vars output_vars
    (fun i j =>
      if h : i < get_variable_list_size output_vars ∧
          j < get_variable_list_size input_vars then
        total ⟨i, h.1⟩ ⟨j, h.2⟩
      else 0)

/-! ## Address-level model of the copy helpers

The value-level embedding above identifies a numpy array with its
contents, which cannot express the aliasing question behind the
copy-semantics claim: whether a caller mutating a returned mapping can
reach the discipline's internal arrays.  The model below therefore gives
each array an address in a store.  `copy_dict_1d` copies each array
(`atleast_1d(values_dict[var.name]).copy()`): in the model it allocates a
fresh address per copied array and duplicates the contents there.  All
mapping-returning operations of the code — `Discipline.eval` and
`Discipline.differentiate` (whose return statements are
`get_output_values()` / `get_jac()`), `get_output_values`,
`get_default_inputs`, and `MemoryCache.load_entry` — produce their result
through `copy_dict_1d` / `copy_dict_2d`, so the copy helpers are exactly
the code deciding the claim. -/

/-- Array addresses. -/
abbrev Addr := ℕ

/-- A dict whose arrays live in a store (Python name → array-object
reference). -/
abbrev RDict := List (String × Addr)

/-- A two-level jacobian dict at address level: each dense block is one
array object. -/
abbrev RDict2 := List (String × List (String × Addr))

/-- The array store together with the next address to allocate.
Addresses `< next` are the already-allocated arrays. -/
structure Heap where
  store : Addr → Vec
  next : Addr

/-- Address-level `copy_dict_1d`: for each variable present in the dict,
allocate a fresh array holding a copy of the contents and bind the
variable's name to it. -/
def copyDict1dH (vars : List Variable) (d : RDict) (h : Heap) :
    RDict × Heap :=
  match vars with
  | [] => ([], h)
  | v :: rest =>
    match lookupV d v.name with
    | some a =>
      let h2 : Heap :=
        { store := Function.update h.store h.next (h.store a),
          next := h.next + 1 }
      let p := copyDict1dH rest d h2
      ((v.name, h.next) :: p.1, p.2)
    | none => copyDict1dH rest d h

/-- Address-level `copy_dict_2d`: the inner per-input loop copies one
block per input variable, exactly the `copy_dict_1d` allocation pattern;
the outer loop walks the output variables. -/
def copyDict2dH (input_vars output_vars : List Variable) (d : RDict2)
    (h : Heap) : RDict2 × Heap :=
  match output_vars with
  | [] => ([], h)
  | ov :: rest =>
    match lookupV d ov.name with
    | some inner =>
      let p := copyDict1dH input_vars inner h
      let q := copyDict2dH input_vars rest d p.2
      ((ov.name, p.1) :: q.1, q.2)
    | none => copyDict2dH input_vars rest d h

/-! ## Concrete fixtures

Small concrete variables, caches, disciplines and solvers used by the
witness and counterexample theorems below.  Single-component vectors are
used throughout, so `nrmAbs` agrees with the Euclidean norm on every
vector they produce. -/

/-- A scalar variable named `x`. -/
def varX : Variable := { name := "x" }

/-- A variable named `x` of size 2 (same name as `varX`, different size). -/
def varX2 : Variable := { name := "x", size := 2 }

/-- A scalar variable named `y`. -/
def varY : Variable := { name := "y" }

/-- A scalar variable named `f`. -/
def varF : Variable := { name := "f" }

/-- Cache construction as `create_cache`/`Cache.__init__` wires it from a
discipline: the variable lists are the discipline's own. -/
def mkCache (ivs ovs : List Variable) (pol : CachePolicy) (tol : ℚ)
    (es : List Entry) : MemoryCache :=
  { input_vars := ivs, output_vars := ovs, dinput_vars := ivs,
    doutput_vars := ovs, policy := pol, tol := tol, entries := es }

/-- A freshly constructed discipline (counters zero, empty transient
state), as `Discipline.__init__` leaves it. -/
def mkDisc (nm : String) (ivs ovs : List Variable) (c : MemoryCache)
    (defaults : VDict) : Discipline :=
  { name := nm, input_vars := ivs, output_vars := ovs, dinput_vars := ivs,
    doutput_vars := ovs, cache := c, n_eval := 0, n_diff := 0,
    default_inputs := defaults, values := [], jac := [],
    approximating_jac := false, log := [] }

/-- Discipline whose declared input `x` has size 2, used to call `eval`
with a mis-sized value. -/
def discBadInput : Discipline :=
  mkDisc "D" [varX2] [varY]
    (mkCache [varX2] [varY] .latest (1 / 1000000000) []) []

/-- A user evaluation function writing `y := 5`. -/
def userEvalY5 : VDict → VDict := fun d => updOne d "y" [5]

/-- A user evaluation function writing `y := 99`. -/
def userEvalY99 : VDict → VDict := fun d => updOne d "y" [99]

/-- A user evaluation function writing `y := 3`. -/
def userEvalY3 : VDict → VDict := fun d => updOne d "y" [3]

/-- `LATEST` cache with tolerance `1/10` holding one entry at `x = 0`
with output `y = 7`. -/
def cacheNearZero : MemoryCache :=
  mkCache [varX] [varY] .latest (1 / 10)
    [{ inputs := [("x", [0])], outputs := [("y", [7])], jac := [] }]

/-- Discipline over `cacheNearZero`. -/
def discNearZero : Discipline := mkDisc "D" [varX] [varY] cacheNearZero []

/-- Discipline with a fresh empty `LATEST` cache, tolerance `1/100`. -/
def discFresh : Discipline :=
  mkDisc "D" [varX] [varY] (mkCache [varX] [varY] .latest (1 / 100) []) []

/-- A cache for a discipline with no input variables: its entries store
empty input dicts, which the matcher rejects outright. -/
def cacheNoInputs : MemoryCache :=
  mkCache [] [varY] .full (1 / 2)
    [{ inputs := [], outputs := [("y", [1])], jac := [] }]

/-- Entries for the reverse-scan witness: two entries whose inputs both
match a query near zero. -/
def entryA : Entry := { inputs := [("x", [0])], outputs := [("y", [1])], jac := [] }

/-- Second (more recent) matching entry. -/
def entryB : Entry := { inputs := [("x", [1 / 100])], outputs := [("y", [2])], jac := [] }

/-- `FULL` cache holding `entryA` then `entryB` (tolerance `1/10`). -/
def cacheTwoNear : MemoryCache :=
  mkCache [varX] [varY] .full (1 / 10) [entryA, entryB]

/-- Older entry of the shadowing counterexample, at `x = 21/200`. -/
def entryOld : Entry :=
  { inputs := [("x", [21 / 200])], outputs := [("y", [1])], jac := [] }

/-- `FULL` cache with tolerance `1/10` holding only `entryOld`. -/
def cacheShadow : MemoryCache := mkCache [varX] [varY] .full (1 / 10) [entryOld]

/-- An empty `LATEST` cache over `x`/`y`. -/
def cacheLatestEmpty : MemoryCache := mkCache [varX] [varY] .latest (1 / 10) []

/-- The entry the shadowing counterexample inserts at `x = 0`. -/
def entryNew : Entry :=
  { inputs := [("x", [0])], outputs := [("y", [2])], jac := [] }

/-- `cacheShadow` after inserting outputs `y = 2` at the
tolerance-distinct point `x = 0`. -/
def cacheShadowAfter : MemoryCache :=
  add_entry nrmAbs cacheShadow [("x", [0])] (some [("y", [2])]) none

/-- The partial-derivative dictionary of a one-coupling toy problem:
`df/dx = 2`, `df/dy = 3`, `dy/dx = 5`. -/
def pdToy : JDict := [("f", [("x", [[2]]), ("y", [[3]])]), ("y", [("x", [[5]])])]

/-- A discipline with no coupling back-edge (`x → y` only). -/
def discNoCouple : Discipline :=
  mkDisc "D" [varX] [varY] (mkCache [varX] [varY] .latest (1 / 10) []) []

/-- A solver over `discNoCouple`: its coupling-variable list is empty. -/
def solverNoCouple : Solver :=
  { name := "S", disciplines := [discNoCouple], n_iter_max := 15,
    relax_fact := 1, tol := 1 / 10000 }

/-- A heap holding one allocated array `[5]` at address 0. -/
def heapOne : Heap := { store := Function.update (fun _ => []) 0 [5], next := 1 }

/-! ## Dictionary lemmas -/

theorem lookupV_append {β : Type} (l₁ l₂ : List (String × β)) (k : String) :
    lookupV (l₁ ++ l₂) k = (lookupV l₁ k).or (lookupV l₂ k) := by
  induction l₁ with
  | nil => simp [lookupV]
  | cons p rest ih =>
    by_cases h : p.1 = k
    · simp [lookupV, h, Option.or]
    · simp [lookupV, h, ih]

theorem lookupV_map_setkey_ne {β : Type} (d : List (String × β)) (k : String)
    (v : β) (k' : String) (h : k ≠ k') :
    lookupV (d.map (fun p => if p.1 = k then (k, v) else p)) k' = lookupV d k' := by
  induction d with
  | nil => simp [lookupV]
  | cons p rest ih =>
    rw [List.map_cons]
    by_cases hp : p.1 = k
    · have h2 : ¬ (p.1 = k') := fun he => h (hp ▸ he)
      rw [if_pos hp, lookupV, lookupV, if_neg h, if_neg h2]
      exact ih
    · rw [if_neg hp, lookupV, lookupV]
      by_cases hk : p.1 = k'
      · rw [if_pos hk, if_pos hk]
      · rw [if_neg hk, if_neg hk]
        exact ih

theorem updOne_cons_ne {p : String × Vec} {rest : VDict} {k : String}
    {v : Vec} (h : p.1 ≠ k) :
    updOne (p :: rest) k v = p :: updOne rest k v := by
  by_cases ha : rest.any (fun q => q.1 = k)
  · simp [updOne, ha, h]
  · simp [updOne, ha, h]

theorem lookupV_updOne (d : VDict) (k : String) (v : Vec) (k' : String) :
    lookupV (updOne d k v) k' = if k = k' then some v else lookupV d k' := by
  induction d with
  | nil => simp [updOne, lookupV]
  | cons p rest ih =>
    by_cases hp : p.1 = k
    · have hany : ((p :: rest).any (fun q => q.1 = k)) = true := by
        simp [List.any_cons, hp]
      by_cases h : k = k'
      · subst h
        simp [updOne, hany, hp, lookupV]
      · simp only [updOne, hany, if_true, List.map_cons, if_pos hp, lookupV,
          if_neg h]
        rw [lookupV_map_setkey_ne rest k v k' h, if_neg (hp ▸ h)]
    · rw [updOne_cons_ne hp]
      by_cases hk : p.1 = k'
      · have h2 : ¬ k = k' := fun he => hp (he ▸ hk)
        simp [lookupV, hk, h2]
      · simp [lookupV, hk, ih]

theorem updateD_cons (d : VDict) (p : String × Vec) (e : VDict) :
    updateD d (p :: e) = updateD (updOne d p.1 p.2) e := rfl

theorem lookupV_updateD (d e : VDict) (k : String) :
    lookupV (updateD d e) k = (lookupV e.reverse k).or (lookupV d k) := by
  induction e generalizing d with
  | nil => simp [updateD, lookupV]
  | cons p e' ih =>
    rw [updateD_cons, ih, List.reverse_cons, lookupV_append, lookupV_updOne]
    cases hrev : lookupV e'.reverse k with
    | some w => simp [Option.or]
    | none =>
      by_cases h : p.1 = k <;> simp [Option.or, lookupV, h]

theorem lookupV_copy_of_mem {vars : List Variable} {v : Variable}
    (d : VDict) (hv : v ∈ vars) :
    lookupV (copy_dict_1d vars d) v.name = lookupV d v.name := by
  induction vars with
  | nil => cases hv
  | cons w rest ih =>
    rcases List.mem_cons.mp hv with h | h
    · subst h
      cases hl : lookupV d v.name with
      | some x => simp [copy_dict_1d, hl, lookupV]
      | none =>
        simp only [copy_dict_1d, hl]
        clear hv ih
        induction rest with
        | nil => simp [copy_dict_1d, lookupV]
        | cons w2 r2 ih2 =>
          cases hl2 : lookupV d w2.name with
          | some x2 =>
            simp only [copy_dict_1d, hl2, lookupV]
            by_cases he : w2.name = v.name
            · rw [he] at hl2; rw [hl2] at hl; cases hl
            · rw [if_neg he]; exact ih2
          | none => simp only [copy_dict_1d, hl2]; exact ih2
    · cases hl : lookupV d w.name with
      | some x =>
        simp only [copy_dict_1d, hl, lookupV]
        by_cases he : w.name = v.name
        · rw [if_pos he, ← he, hl]
        · rw [if_neg he]; exact ih h
      | none => simp only [copy_dict_1d, hl]; exact ih h

theorem lookupV_copy_not_mem {vars : List Variable} {k : String}
    (d : VDict) (hk : ∀ v ∈ vars, v.name ≠ k) :
    lookupV (copy_dict_1d vars d) k = none := by
  induction vars with
  | nil => simp [copy_dict_1d, lookupV]
  | cons w rest ih =>
    have hw : w.name ≠ k := hk w (List.mem_cons_self w rest)
    have hr : ∀ v ∈ rest, v.name ≠ k :=
      fun v hv => hk v (List.mem_cons_of_mem w hv)
    cases hl : lookupV d w.name with
    | some x => simp only [copy_dict_1d, hl, lookupV, if_neg hw]; exact ih hr
    | none => simp only [copy_dict_1d, hl]; exact ih hr

theorem copy_dict_1d_congr {vars : List Variable} {d d' : VDict}
    (h : ∀ v ∈ vars, lookupV d v.name = lookupV d' v.name) :
    copy_dict_1d vars d = copy_dict_1d vars d' := by
  induction vars with
  | nil => rfl
  | cons w rest ih =>
    have hw := h w (List.mem_cons_self w rest)
    have hr := ih (fun v hv => h v (List.mem_cons_of_mem w hv))
    cases hl : lookupV d' w.name with
    | some x => simp only [copy_dict_1d, hw, hl, hr]
    | none => simp only [copy_dict_1d, hw, hl, hr]

theorem copy_dict_1d_idem (vars : List Variable) (d : VDict) :
    copy_dict_1d vars (copy_dict_1d vars d) = copy_dict_1d vars d :=
  copy_dict_1d_congr (fun _ hv => lookupV_copy_of_mem d hv)

theorem copy_dict_1d_ne_nil {vars : List Variable} {v : Variable}
    (d : VDict) (hv : v ∈ vars) (h : (lookupV d v.name).isSome) :
    copy_dict_1d vars d ≠ [] := by
  induction vars with
  | nil => cases hv
  | cons w rest ih =>
    rcases List.mem_cons.mp hv with hw | hw
    · subst hw
      cases hl : lookupV d v.name with
      | some x => simp [copy_dict_1d, hl]
      | none => rw [hl] at h; cases h
    · cases hl : lookupV d w.name with
      | some x => simp [copy_dict_1d, hl]
      | none => simp only [copy_dict_1d, hl]; exact ih hw

theorem lookupV_mem {β : Type} {l : List (String × β)} {k : String} {x : β}
    (h : lookupV l k = some x) : (k, x) ∈ l := by
  induction l with
  | nil => cases h
  | cons p rest ih =>
    by_cases hp : p.1 = k
    · rw [lookupV, if_pos hp] at h
      cases h
      exact hp ▸ List.mem_cons_self p rest
    · rw [lookupV, if_neg hp] at h
      exact List.mem_cons_of_mem p (ih h)

theorem lookupV_reverse_consistent {β : Type} {l : List (String × β)}
    (h : ∀ p ∈ l, ∀ q ∈ l, p.1 = q.1 → p.2 = q.2) (k : String) :
    lookupV l.reverse k = lookupV l k := by
  induction l with
  | nil => rfl
  | cons p rest ih =>
    have hr : ∀ a ∈ rest, ∀ b ∈ rest, a.1 = b.1 → a.2 = b.2 :=
      fun a ha b hb => h a (List.mem_cons_of_mem p ha) b (List.mem_cons_of_mem p hb)
    rw [List.reverse_cons, lookupV_append, ih hr]
    by_cases hp : p.1 = k
    · cases hrest : lookupV rest k with
      | some y =>
        have hy : (k, y) ∈ rest := lookupV_mem hrest
        have : p.2 = y :=
          h p (List.mem_cons_self p rest) (k, y) (List.mem_cons_of_mem p hy) hp
        simp [Option.or, lookupV, hp, this]
      | none => simp [Option.or, lookupV, hp]
    · rw [show lookupV [p] k = none from by simp [lookupV, hp], Option.or_none,
        lookupV, if_neg hp]

theorem copy_dict_1d_mem_val {vars : List Variable} {d : VDict}
    {p : String × Vec} (hp : p ∈ copy_dict_1d vars d) :
    lookupV d p.1 = some p.2 := by
  induction vars with
  | nil => cases hp
  | cons w rest ih =>
    cases hl : lookupV d w.name with
    | some x =>
      rw [copy_dict_1d, hl] at hp
      rcases List.mem_cons.mp hp with h | h
      · subst h; exact hl
      · exact ih h
    | none => rw [copy_dict_1d, hl] at hp; exact ih hp

theorem copy_dict_1d_consistent (vars : List Variable) (d : VDict) :
    ∀ p ∈ copy_dict_1d vars d, ∀ q ∈ copy_dict_1d vars d,
      p.1 = q.1 → p.2 = q.2 := by
  intro p hp q hq he
  have h1 := copy_dict_1d_mem_val hp
  have h2 := copy_dict_1d_mem_val hq
  rw [he, h2] at h1
  exact (Option.some_injective _ h1).symm

theorem lookupV_rev_copy (vars : List Variable) (d : VDict) (k : String) :
    lookupV (copy_dict_1d vars d).reverse k = lookupV (copy_dict_1d vars d) k :=
  lookupV_reverse_consistent (copy_dict_1d_consistent vars d) k

/-! ## Verification, cache and discipline lemmas -/

theorem verify_dict_1d_ok_or_error (vars : List Variable) (d : VDict) :
    verify_dict_1d vars d = .ok d ∨ ∃ e, verify_dict_1d vars d = .error e := by
  induction vars with
  | nil => exact Or.inl rfl
  | cons v rest ih =>
    cases hl : lookupV d v.name with
    | none => exact Or.inr ⟨_, by rw [verify_dict_1d, hl]⟩
    | some x =>
      by_cases hs : v.size ≠ x.length
      · exact Or.inr ⟨_, by simp only [verify_dict_1d, hl]; rw [if_pos hs]⟩
      · rcases ih with h | ⟨e, h⟩
        · exact Or.inl (by simp only [verify_dict_1d, hl]; rw [if_neg hs]; exact h)
        · exact Or.inr ⟨e, by simp only [verify_dict_1d, hl]; rw [if_neg hs]; exact h⟩

theorem sanitizeInputs_values (d : Discipline) (input_values : Option VDict) :
    (sanitizeInputs d input_values).values =
      updateD (updateD d.values (get_default_inputs d))
        (copy_dict_1d d.input_vars (input_values.getD [])) := by
  rw [sanitizeInputs]
  rcases verify_dict_1d_ok_or_error d.input_vars
    (updateD (updateD d.values (get_default_inputs d))
      (copy_dict_1d d.input_vars (input_values.getD []))) with h | ⟨e, h⟩
  · simp only [h]
  · simp only [h]

theorem sanitizeInputs_fields (d : Discipline) (input_values : Option VDict) :
    ∃ L, sanitizeInputs d input_values =
      { d with
        values := updateD (updateD d.values (get_default_inputs d))
          (copy_dict_1d d.input_vars (input_values.getD [])),
        log := L } := by
  rw [sanitizeInputs]
  rcases verify_dict_1d_ok_or_error d.input_vars
    (updateD (updateD d.values (get_default_inputs d))
      (copy_dict_1d d.input_vars (input_values.getD []))) with h | ⟨e, h⟩
  · exact ⟨d.log, by simp only [h]⟩
  · exact ⟨d.log ++ [d.name ++ ": " ++ e], by simp only [h]⟩

theorem loadCacheEntryOutputs_false {nrm : Vec → ℚ} {d : Discipline}
    (h : (loadCacheEntryOutputs nrm d).1 = false) :
    (loadCacheEntryOutputs nrm d).2 = d := by
  rw [loadCacheEntryOutputs] at h ⊢
  cases hl : load_entry nrm d.cache d.values with
  | mk o j =>
    cases o with
    | none => simp
    | some ov =>
      by_cases ho : ov = []
      · simp [ho]
      · rw [hl] at h
        simp [ho] at h

theorem list_all_congr {α : Type} {l : List α} {f g : α → Bool}
    (h : ∀ x ∈ l, f x = g x) : l.all f = l.all g := by
  induction l with
  | nil => rfl
  | cons x rest ih =>
    rw [List.all_cons, List.all_cons, h x (List.mem_cons_self x rest),
      ih (fun y hy => h y (List.mem_cons_of_mem x hy))]

theorem sanitizeInputs_eq (d : Discipline) (iv : Option VDict) :
    ∃ L, sanitizeInputs { d with values := [], jac := [] } iv =
      { d with values := sanitizedValues d iv, jac := [], log := L } := by
  obtain ⟨L, h⟩ := sanitizeInputs_fields { d with values := [], jac := [] } iv
  refine ⟨L, ?_⟩
  rw [h]
  have hv : sanitizedValues d iv =
      updateD (updateD ({ d with values := [], jac := [] } : Discipline).values
        (get_default_inputs { d with values := [], jac := [] }))
        (copy_dict_1d ({ d with values := [], jac := [] } : Discipline).input_vars
          (iv.getD [])) := by
    rw [sanitizedValues, h]
  rw [← hv]

theorem verifyStep_discipline (vars : List Variable) (dX : Discipline) :
    ∃ L2, (match verify_dict_1d vars dX.values with
      | .ok vs => { dX with values := vs }
      | .error e => { dX with log := dX.log ++ [dX.name ++ ": " ++ e] }) =
      { dX with log := L2 } := by
  rcases verify_dict_1d_ok_or_error vars dX.values with h | ⟨e, h⟩
  · exact ⟨dX.log, by rw [h]⟩
  · exact ⟨dX.log ++ [dX.name ++ ": " ++ e], by rw [h]⟩

theorem eval_miss_spec (nrm : Vec → ℚ) (ue : VDict → VDict) (d : Discipline)
    (iv : Option VDict)
    (happrox : d.approximating_jac = false)
    (hmiss : check_if_entry_exists nrm d.cache (sanitizedValues d iv) = none) :
    (eval nrm ue d iv).1 =
      copy_dict_1d d.output_vars (ue (sanitizedValues d iv)) ∧
    (eval nrm ue d iv).2.n_eval = d.n_eval + 1 ∧
    (eval nrm ue d iv).2.cache =
      add_entry nrm d.cache (ue (sanitizedValues d iv))
        (some (ue (sanitizedValues d iv))) none ∧
    (eval nrm ue d iv).2.default_inputs =
      updateD d.default_inputs
        (copy_dict_1d d.input_vars (ue (sanitizedValues d iv))) ∧
    (eval nrm ue d iv).2.input_vars = d.input_vars ∧
    (eval nrm ue d iv).2.output_vars = d.output_vars ∧
    (eval nrm ue d iv).2.approximating_jac = false := by
  obtain ⟨L1, hsan⟩ := sanitizeInputs_eq d iv
  have hload : loadCacheEntryOutputs nrm
      { d with values := sanitizedValues d iv, jac := [], log := L1 } =
      (false, { d with values := sanitizedValues d iv, jac := [], log := L1 }) := by
    rw [loadCacheEntryOutputs, load_entry]
    simp only []
    rw [hmiss]
  obtain ⟨L2, hver⟩ := verifyStep_discipline d.output_vars
    { d with values := ue (sanitizedValues d iv), jac := [], log := L1 }
  simp only [eval, hsan, hload, Bool.false_eq_true, reduceIte]
  simp only [] at hver
  rw [hver]
  simp only [happrox, Bool.false_eq_true, reduceIte, get_output_values,
    get_input_values, add_default_inputs, addCacheEntryOutputs,
    copy_dict_1d_idem]
  refine ⟨?_, ?_, ?_, ?_, ?_, ?_, ?_⟩ <;> trivial


theorem eval_hit_spec (nrm : Vec → ℚ) (ue : VDict → VDict) (d : Discipline)
    (iv : Option VDict) (e : Entry)
    (happrox : d.approximating_jac = false)
    (hfound : check_if_entry_exists nrm d.cache (sanitizedValues d iv) = some e)
    (hone : copy_dict_1d d.cache.output_vars e.outputs ≠ []) :
    (eval nrm ue d iv).1 =
      copy_dict_1d d.output_vars
        (updateD (sanitizedValues d iv)
          (copy_dict_1d d.cache.output_vars e.outputs)) ∧
    (eval nrm ue d iv).2.n_eval = d.n_eval ∧
    (eval nrm ue d iv).2.cache = d.cache ∧
    (eval nrm ue d iv).2.input_vars = d.input_vars ∧
    (eval nrm ue d iv).2.output_vars = d.output_vars ∧
    (eval nrm ue d iv).2.approximating_jac = false ∧
    (eval nrm ue d iv).2.default_inputs =
      updateD d.default_inputs
        (copy_dict_1d d.input_vars
          (updateD (sanitizedValues d iv)
            (copy_dict_1d d.cache.output_vars e.outputs))) := by
  obtain ⟨L1, hsan⟩ := sanitizeInputs_eq d iv
  have hload : loadCacheEntryOutputs nrm
      { d with values := sanitizedValues d iv, jac := [], log := L1 } =
      (true, { d with
          values := (updateD (sanitizedValues d iv)
            (copy_dict_1d d.cache.output_vars e.outputs)),
          jac := [], log := L1 }) := by
    rw [loadCacheEntryOutputs, load_entry]
    simp only []
    rw [hfound]
    simp [hone]
  obtain ⟨L2, hver⟩ := verifyStep_discipline d.output_vars
    { d with
      values := (updateD (sanitizedValues d iv)
        (copy_dict_1d d.cache.output_vars e.outputs)),
      jac := [], log := L1 }
  simp only [eval, hsan, hload, reduceIte]
  simp only [] at hver
  rw [hver]
  simp only [happrox, Bool.false_eq_true, reduceIte, get_output_values,
    get_input_values, add_default_inputs, addCacheEntryOutputs,
    copy_dict_1d_idem]
  refine ⟨?_, ?_, ?_, ?_, ?_, ?_, ?_⟩ <;> trivial

theorem check_if_entry_exists_config (nrm : Vec → ℚ) (c : MemoryCache)
    (es : List Entry) (q : VDict) :
    check_if_entry_exists nrm { c with entries := es } q =
      es.reverse.find?
        (fun e => check_values_match nrm c.input_vars e.inputs q c.tol) := rfl

theorem sanitizedValues_formula (d : Discipline) (iv : Option VDict) :
    sanitizedValues d iv =
      updateD (updateD [] (copy_dict_1d d.input_vars d.default_inputs))
        (copy_dict_1d d.input_vars (iv.getD [])) := by
  rw [sanitizedValues, sanitizeInputs_values]
  rfl

theorem c2probe1 : sanitizedValues discNearZero (some [("x", [9/100])]) =
    [("x", [9/100])] := by
  rw [sanitizedValues_formula]
  simp [discNearZero, mkDisc, copy_dict_1d, lookupV, varX, updateD, updOne]

theorem c2probe2 : check_if_entry_exists nrmAbs discNearZero.cache
    [("x", [9/100])] =
    some { inputs := [("x", [0])], outputs := [("y", [7])], jac := [] } := by
  have hm : entryMatches nrmAbs cacheNearZero [("x", [9/100])]
      { inputs := [("x", [0])], outputs := [("y", [7])], jac := [] } = true := by
    simp only [entryMatches, cacheNearZero, mkCache, check_values_match]
    norm_num [relErr, nrmAbs, vecSub, lookupD, lookupV, varX, abs_of_nonneg]
  rw [show discNearZero.cache = cacheNearZero from rfl, check_if_entry_exists,
    show cacheNearZero.entries =
      [{ inputs := [("x", [0])], outputs := [("y", [7])], jac := [] }] from rfl]
  simp [List.find?, hm]

/-- The match outcome of `check_values_match` depends on the `test` dict
only through its emptiness and its values at the tested variables'
names. -/
theorem check_values_match_test_congr (nrm : Vec → ℚ) (vars : List Variable)
    (original : VDict) {t t' : VDict} (tol : ℚ)
    (hne : t = [] ↔ t' = [])
    (hpt : ∀ v ∈ vars, lookupV t v.name = lookupV t' v.name) :
    check_values_match nrm vars original t tol =
      check_values_match nrm vars original t' tol := by
  rw [check_values_match, check_values_match]
  by_cases ho : original = []
  · simp [ho]
  · by_cases ht : t = []
    · simp [ht, hne.mp ht]
    · have ht' : ¬ t' = [] := fun h => ht (hne.mpr h)
      rw [if_neg (by simp [ho, ht]), if_neg (by simp [ho, ht'])]
      exact list_all_congr (fun v hv => by
        simp only [relErr, lookupD, hpt v hv])

theorem lookupV_isSome_ne_nil {β : Type} {d : List (String × β)} {k : String}
    (h : (lookupV d k).isSome) : d ≠ [] := by
  intro he
  rw [he] at h
  cases h

theorem findMatchRev_congr {pred pred' : Entry → Bool} (l : List Entry)
    (h : ∀ e ∈ l, pred e = pred' e) :
    findMatchRev pred l = findMatchRev pred' l := by
  induction l with
  | nil => rfl
  | cons e rest ih =>
    rw [findMatchRev, findMatchRev,
      ih (fun x hx => h x (List.mem_cons_of_mem e hx)),
      h e (List.mem_cons_self e rest)]

theorem find?_congr {α : Type} {pred pred' : α → Bool} (l : List α)
    (h : ∀ x ∈ l, pred x = pred' x) : l.find? pred = l.find? pred' := by
  induction l with
  | nil => rfl
  | cons x rest ih =>
    rw [List.find?, List.find?, h x (List.mem_cons_self x rest),
      ih (fun y hy => h y (List.mem_cons_of_mem x hy))]

theorem find?_reverse_eq_findMatchRev (pred : Entry → Bool) (l : List Entry) :
    l.reverse.find? pred = (findMatchRev pred l).map (fun p => p.2) := by
  induction l with
  | nil => rfl
  | cons e rest ih =>
    rw [List.reverse_cons, List.find?_append, ih, findMatchRev]
    cases h : findMatchRev pred rest with
    | some p => simp [Option.or]
    | none =>
      cases hp : pred e with
      | true => simp [List.find?, hp, Option.or]
      | false => simp [List.find?, hp, Option.or]

theorem check_if_entry_exists_eq (nrm : Vec → ℚ) (c : MemoryCache)
    (q : VDict) :
    check_if_entry_exists nrm c q =
      (findMatchRev (entryMatches nrm c q) c.entries).map (fun p => p.2) :=
  find?_reverse_eq_findMatchRev _ _

theorem add_entry_latest (nrm : Vec → ℚ) (c : MemoryCache) (q : VDict)
    (o : Option VDict) (j : Option JDict) (h : c.policy = .latest) :
    (add_entry nrm c q o j).entries = [addedEntry nrm c q o j] := by
  rw [add_entry, addedEntry]
  cases hf : findMatchRev (entryMatches nrm c q) c.entries with
  | some p => cases p with | mk i e => simp [h]
  | none => simp [h]

theorem add_entry_full_new (nrm : Vec → ℚ) (c : MemoryCache) (q : VDict)
    (o : Option VDict) (j : Option JDict) (hp : c.policy = .full)
    (hnone : check_if_entry_exists nrm c q = none) :
    (add_entry nrm c q o j).entries = c.entries ++ [addedEntry nrm c q o j] := by
  rw [check_if_entry_exists_eq] at hnone
  cases hf : findMatchRev (entryMatches nrm c q) c.entries with
  | some p => rw [hf] at hnone; cases hnone
  | none =>
    rw [add_entry, addedEntry, hf]
    simp [hp]

theorem add_entry_config (nrm : Vec → ℚ) (c : MemoryCache) (q : VDict)
    (o : Option VDict) (j : Option JDict) :
    add_entry nrm c q o j = { c with entries := (add_entry nrm c q o j).entries } := by
  rw [add_entry]
  cases hf : findMatchRev (entryMatches nrm c q) c.entries with
  | some p =>
    cases p with
    | mk i e => cases hp : c.policy <;> simp [hp]
  | none => cases hp : c.policy <;> simp [hp]

/-! ## Solver lemmas -/

theorem updateHistory_eq (nrm : Vec → ℚ) (s : SolverState) :
    updateHistory nrm s =
      { s with history := s.history ++ [residMetric nrm s],
               status := if residMetric nrm s ≤ s.tol then true else s.status } := by
  rw [updateHistory]
  by_cases h : residMetric nrm s ≤ s.tol
  · simp [h]
  · simp [h]

theorem initValues_proj (s : SolverState) (disciplines : List Discipline)
    (init : Option VDict) :
    (initValues s disciplines init).iter = s.iter ∧
    (initValues s disciplines init).status = s.status ∧
    (initValues s disciplines init).tol = s.tol ∧
    (initValues s disciplines init).coupling_vars = s.coupling_vars ∧
    (initValues s disciplines init).warned = s.warned ∧
    (initValues s disciplines init).history = s.history := by
  rw [initValues]
  rcases verify_dict_1d_ok_or_error s.coupling_vars
    (s.coupling_vars.foldl
      (fun acc var =>
        match lookupV (init.getD []) var.name with
        | some x => updOne acc var.name x
        | none =>
          match lookupV (disciplines.foldl
              (fun acc d => updateD acc (get_default_inputs d)) []) var.name with
          | some x => updOne acc var.name x
          | none => acc)
      []) with h | ⟨e, h⟩
  · simp [h]
  · simp [h]

/-- Status consistency: a converged state carries a last recorded residual
at or below its tolerance. -/
def statusInv (s : SolverState) : Prop :=
  s.status = true → ∃ m, s.history.getLast? = some m ∧ m ≤ s.tol

theorem updateHistory_inv (nrm : Vec → ℚ) {s : SolverState}
    (hs : s.status = false) : statusInv (updateHistory nrm s) := by
  intro h
  rw [updateHistory_eq] at h ⊢
  by_cases hm : residMetric nrm s ≤ s.tol
  · exact ⟨residMetric nrm s, by simp, hm⟩
  · rw [if_neg hm] at h
    simp only at h
    rw [hs] at h
    cases h

theorem solverPass_iter (nrm : Vec → ℚ) (f : VDict → VDict) (s : SolverState) :
    (solverPass nrm f s).iter = s.iter + 1 := by
  rw [solverPass, applyRelaxation, updateHistory_eq]

theorem solverPass_tol (nrm : Vec → ℚ) (f : VDict → VDict) (s : SolverState) :
    (solverPass nrm f s).tol = s.tol := by
  rw [solverPass, applyRelaxation, updateHistory_eq]

theorem solverPass_warned (nrm : Vec → ℚ) (f : VDict → VDict) (s : SolverState) :
    (solverPass nrm f s).warned = s.warned := by
  rw [solverPass, applyRelaxation, updateHistory_eq]

theorem solverPass_history_ne (nrm : Vec → ℚ) (f : VDict → VDict)
    (s : SolverState) : (solverPass nrm f s).history ≠ [] := by
  rw [solverPass, applyRelaxation, updateHistory_eq]
  simp

theorem solverPass_inv (nrm : Vec → ℚ) (f : VDict → VDict) {s : SolverState}
    (hs : s.status = false) : statusInv (solverPass nrm f s) := by
  rw [solverPass]
  exact updateHistory_inv nrm (by rw [applyRelaxation]; exact hs)

theorem solveLoop_iter_le (nrm : Vec → ℚ) (f : VDict → VDict) (fuel : ℕ)
    (s : SolverState) : (solveLoop nrm f fuel s).iter ≤ s.iter + fuel := by
  induction fuel generalizing s with
  | zero => rw [solveLoop]; omega
  | succ n ih =>
    rw [solveLoop]
    by_cases h : s.status
    · rw [if_pos h]; omega
    · rw [if_neg h]
      have := ih (solverPass nrm f s)
      rw [solverPass_iter] at this
      omega

theorem solveLoop_status_true (nrm : Vec → ℚ) (f : VDict → VDict) (fuel : ℕ)
    {s : SolverState} (h : s.status = true) : solveLoop nrm f fuel s = s := by
  cases fuel with
  | zero => rfl
  | succ n => rw [solveLoop, if_pos h]

theorem solveLoop_inv (nrm : Vec → ℚ) (f : VDict → VDict) (fuel : ℕ)
    {s : SolverState} (h : statusInv s) :
    statusInv (solveLoop nrm f fuel s) := by
  induction fuel generalizing s with
  | zero => exact h
  | succ n ih =>
    rw [solveLoop]
    by_cases hs : s.status
    · rw [if_pos hs]; exact h
    · rw [if_neg hs]
      exact ih (solverPass_inv nrm f (Bool.not_eq_true _ ▸ (by simpa using hs)))

theorem solveLoop_tol (nrm : Vec → ℚ) (f : VDict → VDict) (fuel : ℕ)
    (s : SolverState) : (solveLoop nrm f fuel s).tol = s.tol := by
  induction fuel generalizing s with
  | zero => rfl
  | succ n ih =>
    rw [solveLoop]
    by_cases hs : s.status
    · rw [if_pos hs]
    · rw [if_neg hs, ih, solverPass_tol]

theorem solveLoop_warned (nrm : Vec → ℚ) (f : VDict → VDict) (fuel : ℕ)
    (s : SolverState) : (solveLoop nrm f fuel s).warned = s.warned := by
  induction fuel generalizing s with
  | zero => rfl
  | succ n ih =>
    rw [solveLoop]
    by_cases hs : s.status
    · rw [if_pos hs]
    · rw [if_neg hs, ih, solverPass_warned]

theorem solveLoop_history_ne (nrm : Vec → ℚ) (f : VDict → VDict) (fuel : ℕ)
    {s : SolverState} (h : s.history ≠ []) :
    (solveLoop nrm f fuel s).history ≠ [] := by
  induction fuel generalizing s with
  | zero => exact h
  | succ n ih =>
    rw [solveLoop]
    by_cases hs : s.status
    · rw [if_pos hs]; exact h
    · rw [if_neg hs]
      exact ih (solverPass_history_ne nrm f s)

/-! ## Block-layout lemmas for the jacobian assembler -/

theorem size_foldl_add (vars : List Variable) (c : ℕ) :
    vars.foldl (fun acc v => acc + v.size) c =
      c + vars.foldl (fun acc v => acc + v.size) 0 := by
  induction vars generalizing c with
  | nil => simp
  | cons v rest ih =>
    rw [List.foldl_cons, List.foldl_cons, ih (c + v.size), ih (0 + v.size)]
    omega

theorem get_variable_list_size_cons (v : Variable) (rest : List Variable) :
    get_variable_list_size (v :: rest) = v.size + get_variable_list_size rest := by
  rw [get_variable_list_size, get_variable_list_size, List.foldl_cons,
    size_foldl_add]
  omega

theorem offsetOf_cons_succ (v : Variable) (rest : List Variable) (k : ℕ) :
    offsetOf (v :: rest) (k + 1) = v.size + offsetOf rest k := by
  rw [offsetOf, offsetOf, List.take_succ_cons, List.foldl_cons, size_foldl_add]
  omega

theorem offset_add_lt (vars : List Variable) (k i : ℕ) (hk : k < vars.length)
    (hi : i < (vars.get ⟨k, hk⟩).size) :
    offsetOf vars k + i < get_variable_list_size vars := by
  induction vars generalizing k with
  | nil => cases hk
  | cons v rest ih =>
    cases k with
    | zero =>
      rw [get_variable_list_size_cons]
      simp only [List.get] at hi
      have : offsetOf (v :: rest) 0 = 0 := rfl
      omega
    | succ k0 =>
      rw [get_variable_list_size_cons, offsetOf_cons_succ]
      have hk0 : k0 < rest.length := Nat.lt_of_succ_lt_succ hk
      have := ih k0 hk0 (by simpa using hi)
      omega

theorem varAt_offset (vars : List Variable) (k i : ℕ) (hk : k < vars.length)
    (hi : i < (vars.get ⟨k, hk⟩).size) :
    varAt vars (offsetOf vars k + i) = some (vars.get ⟨k, hk⟩, i) := by
  induction vars generalizing k with
  | nil => cases hk
  | cons v rest ih =>
    cases k with
    | zero =>
      have h0 : offsetOf (v :: rest) 0 = 0 := rfl
      simp only [List.get] at hi ⊢
      rw [h0, Nat.zero_add, varAt, if_pos hi]
    | succ k0 =>
      rw [offsetOf_cons_succ]
      have hk0 : k0 < rest.length := Nat.lt_of_succ_lt_succ hk
      simp only [List.get] at hi ⊢
      rw [varAt, if_neg (by omega)]
      have harith : v.size + offsetOf rest k0 + i - v.size = offsetOf rest k0 + i := by
        omega
      rw [harith]
      exact ih k0 hk0 hi

/-! ## Heap-copy lemmas -/

theorem copyDict1dH_next_mono (vars : List Variable) (d : RDict) (h : Heap) :
    h.next ≤ (copyDict1dH vars d h).2.next := by
  induction vars generalizing h with
  | nil => exact Nat.le_refl _
  | cons v rest ih =>
    cases hl : lookupV d v.name with
    | some a =>
      simp only [copyDict1dH, hl]
      exact Nat.le_trans (Nat.le_succ _)
        (ih { store := Function.update h.store h.next (h.store a),
              next := h.next + 1 })
    | none => simp only [copyDict1dH, hl]; exact ih h

theorem copyDict1dH_fresh (vars : List Variable) (d : RDict) (h : Heap) :
    ∀ p ∈ (copyDict1dH vars d h).1,
      h.next ≤ p.2 ∧ p.2 < (copyDict1dH vars d h).2.next := by
  induction vars generalizing h with
  | nil => intro p hp; cases hp
  | cons v rest ih =>
    intro p hp
    cases hl : lookupV d v.name with
    | some a =>
      simp only [copyDict1dH, hl] at hp ⊢
      rcases List.mem_cons.mp hp with he | he
      · subst he
        refine ⟨Nat.le_refl _, ?_⟩
        have := copyDict1dH_next_mono rest d
          { store := Function.update h.store h.next (h.store a), next := h.next + 1 }
        exact Nat.lt_of_lt_of_le (Nat.lt_succ_self _) this
      · have := ih { store := Function.update h.store h.next (h.store a),
                     next := h.next + 1 } p he
        exact ⟨Nat.le_trans (Nat.le_succ _) this.1, this.2⟩
    | none =>
      simp only [copyDict1dH, hl] at hp ⊢
      exact ih h p hp

theorem copyDict1dH_frame (vars : List Variable) (d : RDict) (h : Heap) :
    ∀ a, a < h.next → (copyDict1dH vars d h).2.store a = h.store a := by
  induction vars generalizing h with
  | nil => intro a _; rfl
  | cons v rest ih =>
    intro a ha
    cases hl : lookupV d v.name with
    | some b =>
      simp only [copyDict1dH, hl]
      have h2 := ih { store := Function.update h.store h.next (h.store b),
                      next := h.next + 1 } a (Nat.lt_succ_of_lt ha)
      rw [h2]
      exact Function.update_noteq (Nat.ne_of_lt ha) _ _
    | none => simp only [copyDict1dH, hl]; exact ih h a ha

theorem copyDict2dH_next_mono (input_vars output_vars : List Variable)
    (d : RDict2) (h : Heap) :
    h.next ≤ (copyDict2dH input_vars output_vars d h).2.next := by
  induction output_vars generalizing h with
  | nil => exact Nat.le_refl _
  | cons ov rest ih =>
    cases hl : lookupV d ov.name with
    | some inner =>
      simp only [copyDict2dH, hl]
      exact Nat.le_trans (copyDict1dH_next_mono input_vars inner h) (ih _)
    | none => simp only [copyDict2dH, hl]; exact ih h

theorem copyDict2dH_fresh (input_vars output_vars : List Variable)
    (d : RDict2) (h : Heap) :
    ∀ p ∈ (copyDict2dH input_vars output_vars d h).1, ∀ q ∈ p.2,
      h.next ≤ q.2 ∧ q.2 < (copyDict2dH input_vars output_vars d h).2.next := by
  induction output_vars generalizing h with
  | nil => intro p hp; cases hp
  | cons ov rest ih =>
    intro p hp q hq
    cases hl : lookupV d ov.name with
    | some inner =>
      simp only [copyDict2dH, hl] at hp ⊢
      rcases List.mem_cons.mp hp with he | he
      · subst he
        have h1 := copyDict1dH_fresh input_vars inner h q hq
        have h2 := copyDict2dH_next_mono input_vars rest d
          (copyDict1dH input_vars inner h).2
        exact ⟨h1.1, Nat.lt_of_lt_of_le h1.2 h2⟩
      · have := ih (copyDict1dH input_vars inner h).2 p he q hq
        exact ⟨Nat.le_trans (copyDict1dH_next_mono input_vars inner h) this.1,
          this.2⟩
    | none =>
      simp only [copyDict2dH, hl] at hp ⊢
      exact ih h p hp q hq

theorem copyDict2dH_frame (input_vars output_vars : List Variable)
    (d : RDict2) (h : Heap) :
    ∀ a, a < h.next →
      (copyDict2dH input_vars output_vars d h).2.store a = h.store a := by
  induction output_vars generalizing h with
  | nil => intro a _; rfl
  | cons ov rest ih =>
    intro a ha
    cases hl : lookupV d ov.name with
    | some inner =>
      simp only [copyDict2dH, hl]
      have h1 := copyDict1dH_frame input_vars inner h a ha
      have h2 := ih (copyDict1dH input_vars inner h).2 a
        (Nat.lt_of_lt_of_le ha (copyDict1dH_next_mono input_vars inner h))
      rw [h2, h1]
    | none => simp only [copyDict2dH, hl]; exact ih h a ha

/-! ## Claim theorems -/

/-- C8: the claim states that equality and hashing of `Variable` depend on
the name field only, so that two variables with the same name but
different sizes are equal and hash equal.  The dataclass hash key (only
`name` is declared `field(hash=True)`) indeed agrees, but the generated
`__eq__` compares *every* field (`field(hash=False)` does not remove a
field from `__eq__`), so the two variables are NOT equal: the code
contradicts the documented by-name identity the rest of the design (e.g.
coupling detection) relies on. -/
theorem variable_hash_by_name_but_eq_all_fields :
    variableHashKey varX = variableHashKey varX2 ∧
    variableEqFull varX varX2 = false := by
  constructor
  · rfl
  · decide

/-- C1: the claim states a missing or mis-sized input value is a hard
failure reported to the caller.  In the code, `_sanitize_inputs` catches
the `verify_dict_1d` exception and only logs it: evaluating `discBadInput`
(declared input `x` of size 2) at the mis-sized `x = [1]` produces the
verification error, yet `eval` continues, runs the user function,
increments `n_eval` and returns outputs normally — the failure never
reaches the caller. -/
theorem eval_continues_after_input_verification_failure :
    verify_dict_1d [varX2] [("x", [1])] =
      .error "Wrong size, for Variable x." ∧
    (eval nrmAbs userEvalY5 discBadInput (some [("x", [1])])).1 = [("y", [5])] ∧
    (eval nrmAbs userEvalY5 discBadInput (some [("x", [1])])).2.log =
      ["D: Wrong size, for Variable x."] ∧
    (eval nrmAbs userEvalY5 discBadInput (some [("x", [1])])).2.n_eval = 1 := by
  refine ⟨rfl, ?_, ?_, ?_⟩ <;> decide

/-- C7: `assemble_partial` returns the `(Σ output sizes, Σ input sizes)`
block matrix in which a name-matching (output, input) position pair
carries the identity sub-block, and every other pair carries the supplied
partial block — negated exactly when `as_residual` is true — or zero when
no block was supplied; the hypothesis that the mapping covers every
output variable is the code's documented precondition (`partial[out]` is
read unconditionally). -/
theorem assemblePartial_blocks
    (input_vars output_vars : List Variable) (pd : JDict) (as_residual : Bool)
    (hcov : ∀ ov ∈ output_vars, (lookupV pd ov.name).isSome)
    (k l i j : ℕ) (hk : k < output_vars.length) (hl : l < input_vars.length)
    (hi : i < (output_vars.get ⟨k, hk⟩).size)
    (hj : j < (input_vars.get ⟨l, hl⟩).size) :
    assemblePartial input_vars output_vars pd as_residual
        ⟨offsetOf output_vars k + i, offset_add_lt output_vars k i hk hi⟩
        ⟨offsetOf input_vars l + j, offset_add_lt input_vars l j hl hj⟩ =
      if (output_vars.get ⟨k, hk⟩).name = (input_vars.get ⟨l, hl⟩).name then
        (if i = j then (1 : ℚ) else 0)
      else
        match lookup2 pd (output_vars.get ⟨k, hk⟩).name
            (input_vars.get ⟨l, hl⟩).name with
        | some b => (if as_residual then (-1 : ℚ) else 1) * blockGet b i j
        | none => 0 := by
  show assemblePartialEntry input_vars output_vars pd as_residual
    (offsetOf output_vars k + i) (offsetOf input_vars l + j) = _
  rw [assemblePartialEntry]
  rw [varAt_offset output_vars k i hk hi, varAt_offset input_vars l j hl hj]

/-- Witness for C7 at a concrete instance: the `(f, x)` residual block of
the toy problem is the supplied `df/dx = 2` negated. -/
theorem assemblePartial_blocks_witness :
    (∀ ov ∈ [varF], (lookupV pdToy ov.name).isSome) ∧
    assemblePartial [varX] [varF] pdToy true ⟨0, by decide⟩ ⟨0, by decide⟩ =
      -2 := by
  refine ⟨by decide, ?_⟩
  have h := assemblePartial_blocks [varX] [varF] pdToy true (by decide)
    0 0 0 0 (by decide) (by decide) (by decide) (by decide)
  refine h.trans ?_
  rw [if_neg (by decide : ¬ ([varF].get ⟨0, by decide⟩).name =
    ([varX].get ⟨0, by decide⟩).name)]
  norm_num [pdToy, varF, varX, lookup2, lookupV, blockGet]

/-- C3: in `assemble_total` the adjoint path is taken exactly when the
total input size is strictly smaller than the total output size (`if not
n_inputs >= n_outputs`), and — for a nonsingular assembled coupling
jacobian — the adjoint path, the direct path and the mathematical
total-derivative expression `dF/dX - dF/dY ·(dR/dY)⁻¹ · dR/dX` all agree,
so `assemble_total` returns the converted formula either way.  (The two
path equalities hold by transpose algebra; the nonsingularity hypothesis
is the claim's well-posedness condition under which the modelled linear
solves mean `A⁻¹ · B`.) -/
theorem assemble_total_adjoint_direct_equiv
    (input_vars output_vars coupling_vars : List Variable) (pd : JDict)
    (hdet : IsUnit (assemblePartial coupling_vars coupling_vars pd true).det) :
    (usesAdjoint input_vars output_vars = true ↔
      get_variable_list_size input_vars < get_variable_list_size output_vars) ∧
    adjointTotal input_vars output_vars coupling_vars pd =
      totalFormula input_vars output_vars coupling_vars pd ∧
    directTotal input_vars output_vars coupling_vars pd =
      totalFormula input_vars output_vars coupling_vars pd ∧
    assemble_total input_vars output_vars coupling_vars pd =
      array_to_dict_2d input_vars output_vars
        (fun i j =>
          if h : i < get_variable_list_size output_vars ∧
              j < get_variable_list_size input_vars then
            totalFormula input_vars output_vars coupling_vars pd ⟨i, h.1⟩ ⟨j, h.2⟩
          else 0) := by
  have hadj : adjointTotal input_vars output_vars coupling_vars pd =
      totalFormula input_vars output_vars coupling_vars pd := by
    rw [adjointTotal, totalFormula]
    congr 1
    rw [Matrix.transpose_mul, Matrix.transpose_transpose,
      Matrix.transpose_nonsing_inv, Matrix.transpose_transpose]
  have hdir : directTotal input_vars output_vars coupling_vars pd =
      totalFormula input_vars output_vars coupling_vars pd := by
    rw [directTotal, totalFormula]
    congr 1
    rw [Matrix.mul_assoc]
  refine ⟨?_, hadj, hdir, ?_⟩
  · rw [usesAdjoint]
    simp [Nat.not_le]
  · by_cases h : usesAdjoint input_vars output_vars <;>
      simp only [assemble_total, h, if_true, if_false, Bool.false_eq_true,
        hadj, hdir]

/-- Witness for C3: the one-coupling toy problem has the identity as its
assembled coupling jacobian (hence a unit determinant), and the adjoint
and direct paths agree on it. -/
theorem assemble_total_adjoint_direct_equiv_witness :
    IsUnit (assemblePartial [varY] [varY] pdToy true).det ∧
    adjointTotal [varX] [varF] [varY] pdToy =
      totalFormula [varX] [varF] [varY] pdToy ∧
    directTotal [varX] [varF] [varY] pdToy =
      totalFormula [varX] [varF] [varY] pdToy := by
  have hone : assemblePartial [varY] [varY] pdToy true =
      (1 : Matrix (Fin (get_variable_list_size [varY]))
        (Fin (get_variable_list_size [varY])) ℚ) := by
    funext i j
    have hs : get_variable_list_size [varY] = 1 := rfl
    have hi : i.val = 0 := by have h := i.isLt; omega
    have hj : j.val = 0 := by have h := j.isLt; omega
    have hij : i = j := Fin.ext (by rw [hi, hj])
    subst hij
    show assemblePartialEntry [varY] [varY] pdToy true i.val i.val = _
    rw [hi, Matrix.one_apply_eq]
    decide
  have hdet : IsUnit (assemblePartial [varY] [varY] pdToy true).det := by
    rw [hone, Matrix.det_one]
    exact isUnit_one
  obtain ⟨-, h2, h3, -⟩ :=
    assemble_total_adjoint_direct_equiv [varX] [varF] [varY] pdToy hdet
  exact ⟨hdet, h2, h3⟩

/-- C4: for any strategy (`f` abstracts `_single_iteration`, which reads
the old values and produces the new ones and, being a total function here,
models a single iteration that returns — exceptions raised *inside* a
strategy, such as Newton's singular linear solve, propagate in Python and
are a separately specified fatal class), `solve` performs at most
`n_iter_max` iterations, always records at least one residual, and when
the final residual is above tolerance it ends with status `NOT_CONVERGED`
and the logged warning — returning the current estimate rather than
raising; a converged run never warns.  The resolvability hypothesis
mirrors step 2 of the spec's driver loop (an unresolved coupling variable
is a failure before iteration starts, outside this claim). -/
theorem solve_never_raises_on_nonconvergence
    (nrm : Vec → ℚ) (f : VDict → VDict) (sv : Solver) (init : Option VDict)
    (hres : ∀ v ∈ get_couplings sv.disciplines,
      (lookupV (init.getD []) v.name).isSome ∨
      (lookupV (sv.disciplines.foldl
        (fun acc d => updateD acc (get_default_inputs d)) []) v.name).isSome) :
    (solve nrm f sv init).iter ≤ sv.n_iter_max ∧
    (solve nrm f sv init).history ≠ [] ∧
    (∀ m, (solve nrm f sv init).history.getLast? = some m → sv.tol < m →
      (solve nrm f sv init).status = false ∧ (solve nrm f sv init).warned = true) ∧
    ((solve nrm f sv init).status = true → (solve nrm f sv init).warned = false) := by
  simp only [solve]
  set s0 : SolverState :=
    { name := sv.name, coupling_vars := get_couplings sv.disciplines,
      relax_fact := sv.relax_fact, tol := sv.tol, history := [], iter := 0,
      status := false, old_values := [], values := [], log := [],
      warned := false } with hs0
  set s1 : SolverState := initValues s0 sv.disciplines init with hs1
  set s2 : SolverState := updateHistory nrm s1 with hs2
  set r : SolverState := solveLoop nrm f sv.n_iter_max s2 with hr
  obtain ⟨h1iter, h1status, h1tol, -, h1warned, h1hist⟩ :=
    initValues_proj s0 sv.disciplines init
  have h2iter : s2.iter = 0 := by
    rw [hs2, updateHistory_eq]
    simp only []
    rw [h1iter]
  have h2tol : s2.tol = sv.tol := by
    rw [hs2, updateHistory_eq]
    simp only []
    rw [h1tol]
  have h2warned : s2.warned = false := by
    rw [hs2, updateHistory_eq]
    simp only []
    rw [h1warned]
  have h2hist : s2.history ≠ [] := by
    rw [hs2, updateHistory_eq]
    simp
  have h2inv : statusInv s2 := by
    rw [hs2]
    exact updateHistory_inv nrm (by rw [h1status])
  have hriter : r.iter ≤ sv.n_iter_max := by
    have := solveLoop_iter_le nrm f sv.n_iter_max s2
    rw [h2iter] at this
    simpa using this
  have hrinv : statusInv r := solveLoop_inv nrm f sv.n_iter_max h2inv
  have hrtol : r.tol = sv.tol := by rw [hr, solveLoop_tol, h2tol]
  have hrwarned : r.warned = false := by rw [hr, solveLoop_warned, h2warned]
  have hrhist : r.history ≠ [] := solveLoop_history_ne nrm f sv.n_iter_max h2hist
  by_cases hst : r.status
  · rw [if_pos hst]
    refine ⟨hriter, hrhist, ?_, fun _ => hrwarned⟩
    intro m hm htol
    obtain ⟨m2, hm2, hle⟩ := hrinv hst
    rw [hm] at hm2
    cases hm2
    rw [hrtol] at hle
    exact absurd htol (not_lt.mpr hle)
  · rw [if_neg hst]
    refine ⟨hriter, hrhist, ?_, ?_⟩
    · intro m _ _
      constructor
      · simpa using hst
      · rfl
    · intro h
      simp only [] at h
      exact absurd h hst

/-- Witness for C4: the trivial solver with no coupling variables. -/
theorem solve_never_raises_on_nonconvergence_witness :
    (∀ v ∈ get_couplings solverNoCouple.disciplines,
      (lookupV ((none : Option VDict).getD []) v.name).isSome ∨
      (lookupV (solverNoCouple.disciplines.foldl
        (fun acc d => updateD acc (get_default_inputs d)) []) v.name).isSome) ∧
    (solve nrmAbs (fun d => d) solverNoCouple none).iter ≤
      solverNoCouple.n_iter_max := by
  have hres : ∀ v ∈ get_couplings solverNoCouple.disciplines,
      (lookupV ((none : Option VDict).getD []) v.name).isSome ∨
      (lookupV (solverNoCouple.disciplines.foldl
        (fun acc d => updateD acc (get_default_inputs d)) []) v.name).isSome := by
    decide
  exact ⟨hres,
    (solve_never_raises_on_nonconvergence nrmAbs (fun d => d)
      solverNoCouple none hres).1⟩

/-- C9: a solver over disciplines with no coupling variables returns
immediately: the coupling list is empty, so the initial residual metric is
the empty sum `0`, which is at or below any non-negative tolerance; the
status becomes `CONVERGED` before the loop runs, the iteration count stays
`0`, and the returned coupling-value mapping is empty (no warning, no
logged error). -/
theorem solve_no_couplings_immediate
    (nrm : Vec → ℚ) (f : VDict → VDict) (sv : Solver) (init : Option VDict)
    (hc : get_couplings sv.disciplines = [])
    (htol : 0 ≤ sv.tol) :
    solve nrm f sv init =
      { name := sv.name, coupling_vars := [], relax_fact := sv.relax_fact,
        tol := sv.tol, history := [0], iter := 0, status := true,
        old_values := [], values := [], log := [], warned := false } := by
  have hs1 : initValues
      { name := sv.name, coupling_vars := get_couplings sv.disciplines,
        relax_fact := sv.relax_fact, tol := sv.tol, history := [], iter := 0,
        status := false, old_values := [], values := [], log := [],
        warned := false } sv.disciplines init =
      { name := sv.name, coupling_vars := [], relax_fact := sv.relax_fact,
        tol := sv.tol, history := [], iter := 0, status := false,
        old_values := [], values := [], log := [], warned := false } := by
    rw [initValues]
    simp [hc, verify_dict_1d]
  have hs2 : updateHistory nrm
      { name := sv.name, coupling_vars := [], relax_fact := sv.relax_fact,
        tol := sv.tol, history := ([] : List ℚ), iter := 0, status := false,
        old_values := [], values := [], log := [], warned := false } =
      { name := sv.name, coupling_vars := [], relax_fact := sv.relax_fact,
        tol := sv.tol, history := [0], iter := 0, status := true,
        old_values := [], values := [], log := [], warned := false } := by
    rw [updateHistory_eq]
    have hm : residMetric nrm
        { name := sv.name, coupling_vars := [], relax_fact := sv.relax_fact,
          tol := sv.tol, history := ([] : List ℚ), iter := 0, status := false,
          old_values := [], values := [], log := [],
          warned := false } = 0 := rfl
    rw [hm]
    simp [htol]
  simp only [solve]
  rw [hs1, hs2, solveLoop_status_true nrm f sv.n_iter_max rfl]
  simp

/-- Witness for C9 on the concrete uncoupled solver. -/
theorem solve_no_couplings_immediate_witness :
    get_couplings solverNoCouple.disciplines = [] ∧
    (0 : ℚ) ≤ solverNoCouple.tol ∧
    solve nrmAbs (fun d => d) solverNoCouple none =
      { name := "S", coupling_vars := [], relax_fact := 1,
        tol := 1 / 10000, history := [0], iter := 0, status := true,
        old_values := [], values := [], log := [], warned := false } := by
  refine ⟨by decide, by norm_num [solverNoCouple], ?_⟩
  exact solve_no_couplings_immediate nrmAbs (fun d => d) solverNoCouple none
    (by decide) (by norm_num [solverNoCouple])

/-- C2 (amended): if `evaluate(x)` is a strict cache miss (no stored entry
matches the sanitized inputs), the discipline is not inside an
approximation sweep, the cache's variable lists are the discipline's own,
the sanitized inputs are non-empty, the user function populates every
output variable and preserves the input entries, and the second call's
sanitized inputs match the entry the first call stored — in particular
identical inputs, for positive tolerance — then the second `evaluate`
returns outputs identical to the first call's and does not increment
`n_eval`.  (The original "any inputs within the cache tolerance of x"
phrasing fails: see the counterexample.) -/
theorem eval_cache_roundtrip_after_miss
    (nrm : Vec → ℚ) (ue : VDict → VDict) (d : Discipline) (x x' : Option VDict)
    (happrox : d.approximating_jac = false)
    (hcvi : d.cache.input_vars = d.input_vars)
    (hcvo : d.cache.output_vars = d.output_vars)
    (hmiss : check_if_entry_exists nrm d.cache (sanitizedValues d x) = none)
    (hVne : sanitizedValues d x ≠ [])
    (hue : ∀ v ∈ d.input_vars,
      lookupV (ue (sanitizedValues d x)) v.name =
        lookupV (sanitizedValues d x) v.name)
    (hcov : ∀ v ∈ d.output_vars,
      (lookupV (ue (sanitizedValues d x)) v.name).isSome)
    (houtne : d.output_vars ≠ [])
    (hmatch : check_values_match nrm d.input_vars
      (copy_dict_1d d.input_vars (sanitizedValues d x))
      (sanitizedValues (eval nrm ue d x).2 x') d.cache.tol = true) :
    (eval nrm ue (eval nrm ue d x).2 x').1 = (eval nrm ue d x).1 ∧
    (eval nrm ue (eval nrm ue d x).2 x').2.n_eval =
      (eval nrm ue d x).2.n_eval := by
  obtain ⟨ho1, hne1, hcache1, hdef1, hiv1, hov1, happ1⟩ :=
    eval_miss_spec nrm ue d x happrox hmiss
  have hWne : ue (sanitizedValues d x) ≠ [] := by
    obtain ⟨v, hv⟩ := List.exists_mem_of_ne_nil d.output_vars houtne
    exact lookupV_isSome_ne_nil (hcov v hv)
  have hpredeq : ∀ e2 ∈ d.cache.entries,
      entryMatches nrm d.cache (ue (sanitizedValues d x)) e2 =
        entryMatches nrm d.cache (sanitizedValues d x) e2 := by
    intro e2 _
    rw [entryMatches, entryMatches]
    refine check_values_match_test_congr nrm d.cache.input_vars e2.inputs
      d.cache.tol ⟨fun h => absurd h hWne, fun h => absurd h hVne⟩ ?_
    rw [hcvi]
    exact hue
  have hfmr : findMatchRev
      (entryMatches nrm d.cache (ue (sanitizedValues d x)))
      d.cache.entries = none := by
    rw [findMatchRev_congr d.cache.entries hpredeq]
    have hh := check_if_entry_exists_eq nrm d.cache (sanitizedValues d x)
    rw [hmiss] at hh
    cases hf : findMatchRev (entryMatches nrm d.cache (sanitizedValues d x))
        d.cache.entries with
    | some p => rw [hf] at hh; cases hh
    | none => rfl
  have hE : addedEntry nrm d.cache (ue (sanitizedValues d x))
      (some (ue (sanitizedValues d x))) none =
      { inputs := copy_dict_1d d.cache.input_vars (ue (sanitizedValues d x)),
        outputs := copy_dict_1d d.cache.output_vars (ue (sanitizedValues d x)),
        jac := [] } := by
    rw [addedEntry, hfmr]
    rfl
  have hEinputs : (addedEntry nrm d.cache (ue (sanitizedValues d x))
      (some (ue (sanitizedValues d x))) none).inputs =
      copy_dict_1d d.input_vars (sanitizedValues d x) := by
    rw [hE]
    show copy_dict_1d d.cache.input_vars (ue (sanitizedValues d x)) = _
    rw [hcvi]
    exact copy_dict_1d_congr hue
  have hcacheE : (eval nrm ue d x).2.cache.entries =
      d.cache.entries ++ [addedEntry nrm d.cache (ue (sanitizedValues d x))
        (some (ue (sanitizedValues d x))) none] ∨
      (eval nrm ue d x).2.cache.entries =
      [addedEntry nrm d.cache (ue (sanitizedValues d x))
        (some (ue (sanitizedValues d x))) none] := by
    rw [hcache1, add_entry, addedEntry, hfmr]
    cases hp : d.cache.policy with
    | full => left; rfl
    | latest => right; rfl
  have hconfig : (eval nrm ue d x).2.cache =
      { d.cache with entries := (eval nrm ue d x).2.cache.entries } := by
    rw [hcache1]
    exact add_entry_config nrm d.cache (ue (sanitizedValues d x))
      (some (ue (sanitizedValues d x))) none
  have hpred2 : check_values_match nrm d.cache.input_vars
      (addedEntry nrm d.cache (ue (sanitizedValues d x))
        (some (ue (sanitizedValues d x))) none).inputs
      (sanitizedValues (eval nrm ue d x).2 x') d.cache.tol = true := by
    rw [hEinputs, hcvi]
    exact hmatch
  have hfound2 : check_if_entry_exists nrm (eval nrm ue d x).2.cache
      (sanitizedValues (eval nrm ue d x).2 x') =
      some (addedEntry nrm d.cache (ue (sanitizedValues d x))
        (some (ue (sanitizedValues d x))) none) := by
    rw [hconfig, check_if_entry_exists_config]
    rcases hcacheE with hfull | hlatest
    · rw [hfull, List.reverse_append]
      simp only [List.reverse_cons, List.reverse_nil, List.nil_append,
        List.cons_append]
      rw [List.find?_cons]
      rw [hpred2]
    · rw [hlatest]
      simp only [List.reverse_cons, List.reverse_nil, List.nil_append]
      rw [List.find?_cons]
      rw [hpred2]
  have honeE : copy_dict_1d (eval nrm ue d x).2.cache.output_vars
      (addedEntry nrm d.cache (ue (sanitizedValues d x))
        (some (ue (sanitizedValues d x))) none).outputs ≠ [] := by
    have hcov2 : (eval nrm ue d x).2.cache.output_vars = d.output_vars := by
      rw [hconfig]
      show d.cache.output_vars = d.output_vars
      exact hcvo
    rw [hcov2, hE]
    show copy_dict_1d d.output_vars
      (copy_dict_1d d.cache.output_vars (ue (sanitizedValues d x))) ≠ []
    rw [hcvo]
    obtain ⟨v, hv⟩ := List.exists_mem_of_ne_nil d.output_vars houtne
    apply copy_dict_1d_ne_nil _ hv
    rw [lookupV_copy_of_mem _ hv]
    exact hcov v hv
  obtain ⟨ho2, hne2, -, -, -, -, -⟩ :=
    eval_hit_spec nrm ue (eval nrm ue d x).2 x'
      (addedEntry nrm d.cache (ue (sanitizedValues d x))
        (some (ue (sanitizedValues d x))) none) happ1 hfound2 honeE
  constructor
  · rw [ho2, ho1, hov1]
    have hcov2 : (eval nrm ue d x).2.cache.output_vars = d.output_vars := by
      rw [hconfig]
      show d.cache.output_vars = d.output_vars
      exact hcvo
    rw [hcov2, hE]
    show copy_dict_1d d.output_vars
        (updateD (sanitizedValues (eval nrm ue d x).2 x')
          (copy_dict_1d d.output_vars
            (copy_dict_1d d.cache.output_vars (ue (sanitizedValues d x))))) = _
    rw [hcvo, copy_dict_1d_idem]
    apply copy_dict_1d_congr
    intro v hv
    rw [lookupV_updateD, lookupV_rev_copy, lookupV_copy_of_mem _ hv]
    cases hl : lookupV (ue (sanitizedValues d x)) v.name with
    | some w => simp [Option.or]
    | none =>
      have := hcov v hv
      rw [hl] at this
      cases this
  · rw [hne2]

/-- C2 counterexample: `discNearZero` holds a `LATEST` cache (tolerance
`1/10`) with an entry at `x = 0`, outputs `y = 7`.  The first `evaluate`
at `x = 9/100` hits that entry (`9/109 < 1/10`) and leaves `n_eval = 0`.
The inputs `x' = 18/100` are within the cache tolerance of `x`
(`9/118 < 1/10`), yet the second `evaluate` at `x'` misses the stored
entry (`18/118 ≥ 1/10`), runs the user function, returns different
outputs and increments `n_eval` — refuting the claim for
within-tolerance (non-identical) inputs. -/
theorem eval_within_tolerance_misses_and_recounts :
    check_values_match nrmAbs [varX] [("x", [9/100])] [("x", [18/100])]
      (1/10) = true ∧
    (eval nrmAbs userEvalY99 discNearZero (some [("x", [9/100])])).1 =
      [("y", [7])] ∧
    (eval nrmAbs userEvalY99 discNearZero (some [("x", [9/100])])).2.n_eval = 0 ∧
    (eval nrmAbs userEvalY99
      (eval nrmAbs userEvalY99 discNearZero (some [("x", [9/100])])).2
      (some [("x", [18/100])])).1 = [("y", [99])] ∧
    (eval nrmAbs userEvalY99
      (eval nrmAbs userEvalY99 discNearZero (some [("x", [9/100])])).2
      (some [("x", [18/100])])).2.n_eval = 1 ∧
    ([("y", [99])] : VDict) ≠ [("y", [7])] := by
  have hwithin : check_values_match nrmAbs [varX] [("x", [9/100])]
      [("x", [18/100])] (1/10) = true := by
    rw [check_values_match]
    norm_num [relErr, nrmAbs, vecSub, lookupD, lookupV, varX, abs_of_nonneg,
      abs_sub_comm]
  have hV1 := c2probe1
  have hfound : check_if_entry_exists nrmAbs discNearZero.cache
      (sanitizedValues discNearZero (some [("x", [9/100])])) =
      some { inputs := [("x", [0])], outputs := [("y", [7])], jac := [] } := by
    rw [hV1]; exact c2probe2
  have hone : copy_dict_1d discNearZero.cache.output_vars
      ({ inputs := [("x", [0])], outputs := [("y", [7])], jac := [] } : Entry).outputs ≠ [] := by
    simp [discNearZero, mkDisc, mkCache, copy_dict_1d, lookupV, varY, cacheNearZero]
  obtain ⟨ho1, hne1, hcache1, hiv1, hov1, happ1, hdef1⟩ :=
    eval_hit_spec nrmAbs userEvalY99 discNearZero (some [("x", [9/100])])
      { inputs := [("x", [0])], outputs := [("y", [7])], jac := [] }
      rfl hfound hone
  have ho1' : (eval nrmAbs userEvalY99 discNearZero (some [("x", [9/100])])).1 =
      [("y", [7])] := by
    rw [ho1, hV1]
    simp [discNearZero, mkDisc, mkCache, cacheNearZero, copy_dict_1d, lookupV,
      varX, varY, updateD, updOne]
  have hne1' : (eval nrmAbs userEvalY99 discNearZero
      (some [("x", [9/100])])).2.n_eval = 0 := by rw [hne1]; rfl
  -- second call
  have hdef1' : (eval nrmAbs userEvalY99 discNearZero
      (some [("x", [9/100])])).2.default_inputs = [("x", [9/100])] := by
    rw [hdef1, hV1]
    simp [discNearZero, mkDisc, mkCache, cacheNearZero, copy_dict_1d, lookupV,
      varX, varY, updateD, updOne]
  have hV2 : sanitizedValues (eval nrmAbs userEvalY99 discNearZero
      (some [("x", [9/100])])).2 (some [("x", [18/100])]) =
      [("x", [18/100])] := by
    rw [sanitizedValues_formula, hiv1, hdef1']
    simp [discNearZero, mkDisc, copy_dict_1d, lookupV, varX, updateD, updOne]
  have hmiss2 : check_if_entry_exists nrmAbs
      (eval nrmAbs userEvalY99 discNearZero (some [("x", [9/100])])).2.cache
      (sanitizedValues (eval nrmAbs userEvalY99 discNearZero
        (some [("x", [9/100])])).2 (some [("x", [18/100])])) = none := by
    rw [hV2, hcache1]
    have hm : entryMatches nrmAbs cacheNearZero [("x", [18/100])]
        { inputs := [("x", [0])], outputs := [("y", [7])], jac := [] } = false := by
      simp only [entryMatches, cacheNearZero, mkCache, check_values_match]
      norm_num [relErr, nrmAbs, vecSub, lookupD, lookupV, varX, abs_of_nonneg,
        abs_sub_comm]
    rw [show discNearZero.cache = cacheNearZero from rfl, check_if_entry_exists,
      show cacheNearZero.entries =
        [{ inputs := [("x", [0])], outputs := [("y", [7])], jac := [] }] from rfl]
    simp [List.find?, hm]
  obtain ⟨ho2, hne2, -, -, -, -, -⟩ :=
    eval_miss_spec nrmAbs userEvalY99
      (eval nrmAbs userEvalY99 discNearZero (some [("x", [9/100])])).2
      (some [("x", [18/100])]) happ1 hmiss2
  have ho2' : (eval nrmAbs userEvalY99
      (eval nrmAbs userEvalY99 discNearZero (some [("x", [9/100])])).2
      (some [("x", [18/100])])).1 = [("y", [99])] := by
    rw [ho2, hV2, hov1]
    simp [discNearZero, mkDisc, userEvalY99, copy_dict_1d, lookupV, varY,
      updOne]
  have hne2' : (eval nrmAbs userEvalY99
      (eval nrmAbs userEvalY99 discNearZero (some [("x", [9/100])])).2
      (some [("x", [18/100])])).2.n_eval = 1 := by
    rw [hne2, hne1']
  refine ⟨hwithin, ho1', hne1', ho2', hne2', ?_⟩
  intro h
  have := congrArg (fun (l : VDict) => lookupV l "y") h
  simp [lookupV] at this

/-- Witness for C2 (amended): on a fresh discipline (empty cache,
tolerance `1/100`), evaluating twice at the identical input `x = 2`
returns identical outputs and leaves `n_eval` unchanged by the second
call. -/
theorem eval_cache_roundtrip_after_miss_witness :
    check_if_entry_exists nrmAbs discFresh.cache
      (sanitizedValues discFresh (some [("x", [2])])) = none ∧
    (eval nrmAbs userEvalY3
      (eval nrmAbs userEvalY3 discFresh (some [("x", [2])])).2
      (some [("x", [2])])).1 =
      (eval nrmAbs userEvalY3 discFresh (some [("x", [2])])).1 ∧
    (eval nrmAbs userEvalY3
      (eval nrmAbs userEvalY3 discFresh (some [("x", [2])])).2
      (some [("x", [2])])).2.n_eval =
      (eval nrmAbs userEvalY3 discFresh (some [("x", [2])])).2.n_eval := by
  have hV1 : sanitizedValues discFresh (some [("x", [2])]) = [("x", [2])] := by
    rw [sanitizedValues_formula]
    simp [discFresh, mkDisc, copy_dict_1d, lookupV, varX, updateD, updOne]
  have hmiss : check_if_entry_exists nrmAbs discFresh.cache
      (sanitizedValues discFresh (some [("x", [2])])) = none := rfl
  have hW : userEvalY3 (sanitizedValues discFresh (some [("x", [2])])) =
      [("x", [2]), ("y", [3])] := by
    rw [hV1]
    simp [userEvalY3, updOne]
  have hue : ∀ v ∈ discFresh.input_vars,
      lookupV (userEvalY3 (sanitizedValues discFresh (some [("x", [2])]))) v.name =
        lookupV (sanitizedValues discFresh (some [("x", [2])])) v.name := by
    intro v hv
    rw [hW, hV1]
    rcases List.mem_singleton.mp hv with rfl
    simp [lookupV, varX]
  have hcov : ∀ v ∈ discFresh.output_vars,
      (lookupV (userEvalY3 (sanitizedValues discFresh (some [("x", [2])]))) v.name).isSome := by
    intro v hv
    rw [hW]
    rcases List.mem_singleton.mp hv with rfl
    simp [lookupV, varY]
  obtain ⟨-, -, -, hdef1, hiv1, -, -⟩ :=
    eval_miss_spec nrmAbs userEvalY3 discFresh (some [("x", [2])]) rfl hmiss
  have hdef1' : (eval nrmAbs userEvalY3 discFresh
      (some [("x", [2])])).2.default_inputs = [("x", [2])] := by
    rw [hdef1, hW]
    simp [discFresh, mkDisc, copy_dict_1d, lookupV, varX, updateD, updOne]
  have hV2 : sanitizedValues (eval nrmAbs userEvalY3 discFresh
      (some [("x", [2])])).2 (some [("x", [2])]) = [("x", [2])] := by
    rw [sanitizedValues_formula, hiv1, hdef1']
    simp [discFresh, mkDisc, copy_dict_1d, lookupV, varX, updateD, updOne]
  have hmatch : check_values_match nrmAbs discFresh.input_vars
      (copy_dict_1d discFresh.input_vars
        (sanitizedValues discFresh (some [("x", [2])])))
      (sanitizedValues (eval nrmAbs userEvalY3 discFresh
        (some [("x", [2])])).2 (some [("x", [2])]))
      discFresh.cache.tol = true := by
    rw [hV1, hV2]
    show check_values_match nrmAbs [varX] (copy_dict_1d [varX] [("x", [2])])
      [("x", [2])] (1/100) = true
    rw [show copy_dict_1d [varX] [("x", [2])] = [("x", [2])] from by
      simp [copy_dict_1d, lookupV, varX]]
    rw [check_values_match]
    norm_num [relErr, nrmAbs, vecSub, lookupD, lookupV, varX]
  have hVne : sanitizedValues discFresh (some [("x", [2])]) ≠ [] := by
    rw [hV1]
    simp
  have h := eval_cache_roundtrip_after_miss nrmAbs userEvalY3 discFresh
    (some [("x", [2])]) (some [("x", [2])]) rfl rfl rfl hmiss hVne hue hcov
    (by simp [discFresh, mkDisc]) hmatch
  exact ⟨hmiss, h.1, h.2⟩

/-- C5 counterexample: `cacheNoInputs` belongs to a discipline with no
input variables, so its stored entry holds the empty input mapping.
Every declared input variable (vacuously) has relative error strictly
below the tolerance against the empty query, yet the lookup returns no
entry: `check_values_match` rejects an empty `original` or `test` mapping
outright, refuting the claimed if-and-only-if. -/
theorem check_match_claim_fails_on_empty :
    check_if_entry_exists nrmAbs cacheNoInputs [] = none ∧
    cacheNoInputs.entries ≠ [] ∧
    (∀ v ∈ cacheNoInputs.input_vars, relErr nrmAbs [] [] v < cacheNoInputs.tol) := by
  refine ⟨by decide, by decide, ?_⟩
  intro v hv
  cases hv

/-- C5 (amended): a stored entry matches the query iff the stored input
mapping and the query mapping are both non-empty and every input
variable's normalized relative error `‖stored − query‖ / (1 + ‖query‖)`
is strictly below the tolerance; the lookup scans entries in reverse
insertion order, so the most recently inserted matching entry is
returned. -/
theorem check_match_metric_and_recency
    (nrm : Vec → ℚ) (c : MemoryCache) (q : VDict)
    (orig test : VDict) (tol : ℚ) (vars : List Variable)
    (l₁ l₂ : List Entry) (e : Entry)
    (hsplit : c.entries = l₁ ++ e :: l₂)
    (hmatch : entryMatches nrm c q e = true)
    (hlater : ∀ e2 ∈ l₂, entryMatches nrm c q e2 = false) :
    (check_values_match nrm vars orig test tol = true ↔
      (orig ≠ [] ∧ test ≠ [] ∧ ∀ v ∈ vars, relErr nrm orig test v < tol)) ∧
    check_if_entry_exists nrm c q = some e := by
  constructor
  · rw [check_values_match]
    by_cases ho : orig = []
    · simp [ho]
    · by_cases ht : test = []
      · simp [ho, ht]
      · rw [if_neg (by simp [ho, ht])]
        simp [List.all_eq_true, ho, ht]
  · rw [check_if_entry_exists, hsplit, List.reverse_append,
      List.reverse_cons, List.find?_append, List.find?_append]
    have h2 : l₂.reverse.find? (entryMatches nrm c q) = none :=
      List.find?_eq_none.mpr
        (fun x hx => by rw [List.mem_reverse] at hx; simp [hlater x hx])
    rw [h2]
    have h3 : List.find? (entryMatches nrm c q) [e] = some e := by
      simp [List.find?, hmatch]
    rw [h3]
    simp [Option.or]

/-- Witness for C5 (amended) on `cacheTwoNear`: both stored entries match
the query `x = 0`, and the lookup returns `entryB`, the most recently
inserted. -/
theorem check_match_metric_and_recency_witness :
    (check_values_match nrmAbs cacheTwoNear.input_vars entryB.inputs
        [("x", [0])] cacheTwoNear.tol = true ↔
      (entryB.inputs ≠ [] ∧ ([("x", [0])] : VDict) ≠ [] ∧
        ∀ v ∈ cacheTwoNear.input_vars,
          relErr nrmAbs entryB.inputs [("x", [0])] v < cacheTwoNear.tol)) ∧
    check_if_entry_exists nrmAbs cacheTwoNear [("x", [0])] = some entryB := by
  have hmatch : entryMatches nrmAbs cacheTwoNear [("x", [0])] entryB = true := by
    simp only [entryMatches, cacheTwoNear, entryB, mkCache, check_values_match]
    norm_num [relErr, nrmAbs, vecSub, lookupD, lookupV, varX, abs_of_nonneg]
  exact check_match_metric_and_recency nrmAbs cacheTwoNear [("x", [0])]
    entryB.inputs [("x", [0])] cacheTwoNear.tol cacheTwoNear.input_vars
    [entryA] [] entryB rfl hmatch (fun e2 he2 => by cases he2)

/-- C6 counterexample: in the `FULL` cache `cacheShadow` (tolerance
`1/10`, one entry stored at `x = 21/200`), inserting outputs at `x = 0`
is tolerance-distinct (the lookup for `x = 0` misses, because
`‖21/200 − 0‖/(1 + ‖0‖) = 21/200 ≥ 1/10`) and appends a second entry —
but the old entry is then no longer independently retrievable: querying
its own inputs `x = 21/200` now returns the *new* entry, because the
asymmetric metric gives `‖0 − 21/200‖/(1 + ‖21/200‖) = 21/221 < 1/10`
and the new entry is scanned first. -/
theorem add_entry_full_shadows_old_entry :
    check_if_entry_exists nrmAbs cacheShadow entryOld.inputs = some entryOld ∧
    check_if_entry_exists nrmAbs cacheShadow [("x", [0])] = none ∧
    cacheShadowAfter.entries = [entryOld, entryNew] ∧
    check_if_entry_exists nrmAbs cacheShadowAfter entryOld.inputs =
      some entryNew ∧
    entryNew ≠ entryOld := by
  have hmOldSelf : entryMatches nrmAbs cacheShadow entryOld.inputs entryOld = true := by
    simp only [entryMatches, cacheShadow, entryOld, mkCache, check_values_match]
    norm_num [relErr, nrmAbs, vecSub, lookupD, lookupV, varX, abs_of_nonneg]
  have hmZero : entryMatches nrmAbs cacheShadow [("x", [0])] entryOld = false := by
    simp only [entryMatches, cacheShadow, entryOld, mkCache, check_values_match]
    norm_num [relErr, nrmAbs, vecSub, lookupD, lookupV, varX, abs_of_nonneg]
  have hchk0 : check_if_entry_exists nrmAbs cacheShadow [("x", [0])] = none := by
    rw [check_if_entry_exists, show cacheShadow.entries = [entryOld] from rfl]
    simp [List.find?, hmZero]
  have hadded : addedEntry nrmAbs cacheShadow [("x", [0])] (some [("y", [2])]) none =
      entryNew := by
    rw [addedEntry,
      show findMatchRev (entryMatches nrmAbs cacheShadow [("x", [0])])
          cacheShadow.entries = none from by
        rw [show cacheShadow.entries = [entryOld] from rfl]
        simp [findMatchRev, hmZero]]
    simp only [mergeEntry]
    rw [entryNew]
    simp [copy_dict_1d, lookupV, varX, varY, cacheShadow, mkCache, entryOld]
  have hafter : cacheShadowAfter.entries = [entryOld, entryNew] := by
    rw [cacheShadowAfter,
      add_entry_full_new nrmAbs cacheShadow [("x", [0])] (some [("y", [2])]) none
        rfl hchk0, hadded]
    rfl
  have hconfig : cacheShadowAfter = { cacheShadow with entries := [entryOld, entryNew] } := by
    rw [cacheShadowAfter, add_entry_config]
    rw [show (add_entry nrmAbs cacheShadow [("x", [0])] (some [("y", [2])]) none).entries =
      cacheShadowAfter.entries from rfl, hafter]
  have hmNewOldq : entryMatches nrmAbs { cacheShadow with entries := [entryOld, entryNew] }
      entryOld.inputs entryNew = true := by
    simp only [entryMatches, cacheShadow, entryOld, entryNew, mkCache,
      check_values_match]
    norm_num [relErr, nrmAbs, vecSub, lookupD, lookupV, varX, abs_of_nonneg,
      abs_sub_comm]
  have hne : entryNew ≠ entryOld := by
    have houts : entryNew.outputs ≠ entryOld.outputs := by decide
    exact fun h => houts (congrArg Entry.outputs h)
  refine ⟨?_, hchk0, hafter, ?_, hne⟩
  · rw [check_if_entry_exists, show cacheShadow.entries = [entryOld] from rfl]
    simp [List.find?, hmOldSelf]
  · rw [hconfig, check_if_entry_exists]
    simp only [List.reverse_cons, List.reverse_nil, List.nil_append,
      List.cons_append]
    simp [List.find?, hmNewOldq]

/-- C6 (amended): under `LATEST` every `add_entry` leaves exactly the one
entry just added or merged; under `FULL` an `add_entry` whose inputs match
no stored entry appends a new entry, all previously stored entries remain
in the list, and a previously retrievable entry stays retrievable by its
own inputs *provided the newly added entry does not also match them* (the
asymmetric match metric allows a newer tolerance-distinct entry to capture
queries at an older entry's inputs — see the counterexample). -/
theorem add_entry_policy_semantics :
    (∀ (nrm : Vec → ℚ) (c : MemoryCache) (q : VDict) (o : Option VDict)
        (j : Option JDict), c.policy = .latest →
      (add_entry nrm c q o j).entries = [addedEntry nrm c q o j]) ∧
    (∀ (nrm : Vec → ℚ) (c : MemoryCache) (q : VDict) (o : Option VDict)
        (j : Option JDict), c.policy = .full →
      check_if_entry_exists nrm c q = none →
      (add_entry nrm c q o j).entries = c.entries ++ [addedEntry nrm c q o j]) ∧
    (∀ (nrm : Vec → ℚ) (c : MemoryCache) (q : VDict) (o : Option VDict)
        (j : Option JDict) (q0 : VDict) (e : Entry), c.policy = .full →
      check_if_entry_exists nrm c q = none →
      check_if_entry_exists nrm c q0 = some e →
      check_values_match nrm c.input_vars (addedEntry nrm c q o j).inputs q0
        c.tol = false →
      check_if_entry_exists nrm (add_entry nrm c q o j) q0 = some e) := by
  refine ⟨add_entry_latest, add_entry_full_new, ?_⟩
  intro nrm c q o j q0 e hp hnone hold hnoshadow
  rw [add_entry_config, add_entry_full_new nrm c q o j hp hnone]
  rw [check_if_entry_exists]
  simp only [List.reverse_append, List.reverse_cons, List.reverse_nil,
    List.nil_append, List.cons_append]
  rw [List.find?]
  have hpred : entryMatches nrm { c with
      entries := c.entries ++ [addedEntry nrm c q o j] } q0
      (addedEntry nrm c q o j) = false := by
    rw [entryMatches]
    exact hnoshadow
  rw [hpred]
  have : List.find? (entryMatches nrm { c with
      entries := c.entries ++ [addedEntry nrm c q o j] } q0)
      c.entries.reverse = some e := by
    rw [show entryMatches nrm { c with
        entries := c.entries ++ [addedEntry nrm c q o j] } q0 =
      entryMatches nrm c q0 from rfl]
    rw [← check_if_entry_exists]
    exact hold
  simpa using this

/-- Witness for C6 (amended): a `LATEST` add leaves one entry; a
tolerance-distinct `FULL` add at `x = 5` appends, and the old entry at
`x = 21/200` stays retrievable since the far-away new entry does not
match its inputs. -/
theorem add_entry_policy_semantics_witness :
    (add_entry nrmAbs cacheLatestEmpty [("x", [1])] (some [("y", [5])])
        none).entries =
      [addedEntry nrmAbs cacheLatestEmpty [("x", [1])] (some [("y", [5])]) none] ∧
    (add_entry nrmAbs cacheShadow [("x", [5])] (some [("y", [2])])
        none).entries =
      cacheShadow.entries ++
        [addedEntry nrmAbs cacheShadow [("x", [5])] (some [("y", [2])]) none] ∧
    check_if_entry_exists nrmAbs
      (add_entry nrmAbs cacheShadow [("x", [5])] (some [("y", [2])]) none)
      entryOld.inputs = some entryOld := by
  obtain ⟨h1, h2, h3⟩ := add_entry_policy_semantics
  have habs5 : |(21 : ℚ)/200 - 5| = 979/200 := by
    rw [abs_sub_comm, abs_of_nonneg] <;> norm_num
  have hm5 : entryMatches nrmAbs cacheShadow [("x", [5])] entryOld = false := by
    simp only [entryMatches, cacheShadow, entryOld, mkCache, check_values_match]
    norm_num [relErr, nrmAbs, vecSub, lookupD, lookupV, varX, habs5,
      abs_of_nonneg]
  have hchk5 : check_if_entry_exists nrmAbs cacheShadow [("x", [5])] = none := by
    rw [check_if_entry_exists, show cacheShadow.entries = [entryOld] from rfl]
    simp [List.find?, hm5]
  have hmOldSelf : entryMatches nrmAbs cacheShadow entryOld.inputs entryOld = true := by
    simp only [entryMatches, cacheShadow, entryOld, mkCache, check_values_match]
    norm_num [relErr, nrmAbs, vecSub, lookupD, lookupV, varX, abs_of_nonneg]
  have hold : check_if_entry_exists nrmAbs cacheShadow entryOld.inputs =
      some entryOld := by
    rw [check_if_entry_exists, show cacheShadow.entries = [entryOld] from rfl]
    simp [List.find?, hmOldSelf]
  have hadded5 : addedEntry nrmAbs cacheShadow [("x", [5])] (some [("y", [2])])
      none = { inputs := [("x", [5])], outputs := [("y", [2])], jac := [] } := by
    rw [addedEntry,
      show findMatchRev (entryMatches nrmAbs cacheShadow [("x", [5])])
          cacheShadow.entries = none from by
        rw [show cacheShadow.entries = [entryOld] from rfl]
        simp [findMatchRev, hm5]]
    simp only [mergeEntry]
    simp [copy_dict_1d, lookupV, varX, varY, cacheShadow, mkCache]
  have habs5b : |(5 : ℚ) - 21/200| = 979/200 := by
    rw [abs_of_nonneg] <;> norm_num
  have hnoshadow : check_values_match nrmAbs cacheShadow.input_vars
      (addedEntry nrmAbs cacheShadow [("x", [5])] (some [("y", [2])])
        none).inputs entryOld.inputs cacheShadow.tol = false := by
    rw [hadded5]
    simp only [cacheShadow, entryOld, mkCache, check_values_match]
    norm_num [relErr, nrmAbs, vecSub, lookupD, lookupV, varX, habs5b,
      abs_of_nonneg]
  exact ⟨h1 nrmAbs cacheLatestEmpty [("x", [1])] (some [("y", [5])]) none rfl,
    h2 nrmAbs cacheShadow [("x", [5])] (some [("y", [2])]) none rfl hchk5,
    h3 nrmAbs cacheShadow [("x", [5])] (some [("y", [2])]) none
      entryOld.inputs entryOld rfl hchk5 hold hnoshadow⟩

/-- C10: all mapping-returning operations (`eval`'s and `differentiate`'s
return values, `get_output_values`, `get_default_inputs`, and the cache's
`load_entry`) produce their result through `copy_dict_1d` /
`copy_dict_2d`, whose address-level models allocate a fresh array per
copied value.  Every address in a returned mapping is fresh (allocated at
or after the pre-call allocation frontier), copying leaves every
pre-existing array unchanged, and mutating a returned array therefore
cannot change any array an internal dict (whose addresses were allocated
before the call) points to — the discipline's working values, jacobian,
default inputs and cache entries are untouched by caller mutation. -/
theorem copy_helpers_return_fresh_arrays
    (vars : List Variable) (d dInt : RDict)
    (input_vars output_vars : List Variable) (d2 : RDict2) (h : Heap)
    (hwf : ∀ p ∈ dInt, p.2 < h.next) :
    (∀ p ∈ (copyDict1dH vars d h).1, h.next ≤ p.2) ∧
    (∀ a, a < h.next → (copyDict1dH vars d h).2.store a = h.store a) ∧
    (∀ b w, b ∈ (copyDict1dH vars d h).1.map (fun p => p.2) →
      ∀ p ∈ dInt,
        Function.update (copyDict1dH vars d h).2.store b w p.2 =
          (copyDict1dH vars d h).2.store p.2) ∧
    (∀ p ∈ (copyDict2dH input_vars output_vars d2 h).1, ∀ q ∈ p.2,
      h.next ≤ q.2) ∧
    (∀ b w op, op ∈ (copyDict2dH input_vars output_vars d2 h).1 →
      b ∈ op.2.map (fun p => p.2) →
      ∀ p ∈ dInt,
        Function.update (copyDict2dH input_vars output_vars d2 h).2.store b w p.2 =
          (copyDict2dH input_vars output_vars d2 h).2.store p.2) := by
  refine ⟨?_, ?_, ?_, ?_, ?_⟩
  · intro p hp
    exact (copyDict1dH_fresh vars d h p hp).1
  · intro a ha
    exact copyDict1dH_frame vars d h a ha
  · intro b w hb p hp
    rcases List.mem_map.mp hb with ⟨q, hq, hqb⟩
    have hfresh := (copyDict1dH_fresh vars d h q hq).1
    have hlt : p.2 < h.next := hwf p hp
    have hqb2 : q.2 = b := hqb
    have hlt2 : p.2 < b := hqb2 ▸ Nat.lt_of_lt_of_le hlt hfresh
    exact Function.update_noteq (Nat.ne_of_lt hlt2) _ _
  · intro p hp q hq
    exact (copyDict2dH_fresh input_vars output_vars d2 h p hp q hq).1
  · intro b w op hop hb p hp
    rcases List.mem_map.mp hb with ⟨q, hq, hqb⟩
    have hfresh := (copyDict2dH_fresh input_vars output_vars d2 h op hop q hq).1
    have hlt : p.2 < h.next := hwf p hp
    have hqb2 : q.2 = b := hqb
    have hlt2 : p.2 < b := hqb2 ▸ Nat.lt_of_lt_of_le hlt hfresh
    exact Function.update_noteq (Nat.ne_of_lt hlt2) _ _

/-- Witness for C10 on a one-array heap: the copy of `x` (stored at
address 0) is returned at the fresh address 1, and overwriting it leaves
the internal dict's array unchanged. -/
theorem copy_helpers_return_fresh_arrays_witness :
    (∀ p ∈ [(("x" : String), (0 : Addr))], p.2 < heapOne.next) ∧
    (∀ p ∈ (copyDict1dH [varX] [("x", 0)] heapOne).1, heapOne.next ≤ p.2) ∧
    (∀ b w, b ∈ (copyDict1dH [varX] [("x", 0)] heapOne).1.map (fun p => p.2) →
      ∀ p ∈ [(("x" : String), (0 : Addr))],
        Function.update (copyDict1dH [varX] [("x", 0)] heapOne).2.store b w p.2 =
          (copyDict1dH [varX] [("x", 0)] heapOne).2.store p.2) := by
  have hwf : ∀ p ∈ [(("x" : String), (0 : Addr))], p.2 < heapOne.next := by
    intro p hp
    rcases List.mem_singleton.mp hp with rfl
    show (0 : ℕ) < 1
    omega
  obtain ⟨h1, -, h3, -, -⟩ := copy_helpers_return_fresh_arrays
    [varX] [("x", 0)] [("x", 0)] [varX] [varY] [("y", [("x", 0)])] heapOne hwf
  exact ⟨hwf, h1, h3⟩

end MSense
